import Mathlib

/-!
Verification of the fileai document-organizer core against its code.

The development shallowly embeds the Python sources of the fileai
repository:

- filename normalization from fileai/document_categorizer.py
  (DocumentCategorizer._generate_filename, _asciify_and_lowercase,
  _sanitize_filename) and fileai/file_renamer.py
  (FileRenamer.asciify_and_lowercase, sanitize_filename);
- path versioning from FileOperator.ensure_unique_path
  (fileai/file_operator.py; FileSystemManager.ensure_unique_path in
  fileai/filesystem_manager.py is textually the same algorithm);
- duplicate lookup from FileOperator.find_duplicate_by_hash;
- the handler dispatch table from fileai/document_handlers.py
  (get_handler);
- the guarded filesystem operations copy_file / move_file / remove_file
  and move_to_unsupported from fileai/file_operator.py;
- the pipeline DocumentPipeline.process / extract_content / categorize /
  move_to_destination from fileai/pipeline.py;
- category resolution from DirectoryManager.get_category_path
  (fileai/directory_manager.py) and the response validation
  Response.model_post_init (fileai/api.py);
- the stability tracker FileEventHandler._check_file_stability from
  fileai/watcher.py;
- the sliding-window rate limiter RateLimiter.wait_if_needed from
  fileai/rate_limiter.py.

Modelling conventions:

- The filesystem is a finite association list from structured paths to
  contents; directories are implicit (mkdir calls and the empty-directory
  cleanup of _cleanup_after_operation touch no file, so they are omitted).
- File contents are abstract values (Nat); the SHA-256 digest used by
  compute_hash is modelled as the content itself, i.e. the digest is
  treated as injective, which is exactly the "hash collision probability
  is negligible" reading the code relies on.  File size is an arbitrary
  function of the content.
- Python exceptions are modelled by explicit error results threaded with
  the filesystem state; the outcome of each fallible OS call (shutil.copy2,
  shutil.move, os.remove) is an explicit Boolean oracle, and the external
  classifier call is an oracle returning either a (filename, category)
  pair or a failure.
- The unbounded while-True loop of ensure_unique_path is given explicit
  fuel; running out of fuel models the non-terminating execution.
- Python str.lower is modelled on the character ranges the code exercises
  (ASCII plus the uppercase forms of the Turkish letters in the
  transliteration table); the regex class of whitespace is modelled by the
  ASCII whitespace characters.  Both restrictions are irrelevant to the
  idempotence statement, which only depends on the sanitizer keeping the
  output inside [a-z0-9-].
-/

namespace Fileai

/-! ## Filename normalization (document_categorizer.py, file_renamer.py) -/

/-- Python str.lower modelled per character: ASCII uppercase is shifted by
32; the uppercase Turkish letters of the transliteration table
(U+00C7 Ccedilla, U+00DC Udiaeresis, U+011E Gbreve, U+015E Scedilla)
map to their lowercase forms; everything else is unchanged. -/
def pyLower (c : Char) : Char :=
  if 65 ≤ c.toNat ∧ c.toNat ≤ 90 then Char.ofNat (c.toNat + 32)
  else if c.toNat = 199 then Char.ofNat 231
  else if c.toNat = 220 then Char.ofNat 252
  else if c.toNat = 286 then Char.ofNat 287
  else if c.toNat = 350 then Char.ofNat 351
  else c

/-- The transliteration table of _asciify_and_lowercase: the lowercase
Turkish letters ccedilla (U+00E7), dotless i (U+0131), udiaeresis
(U+00FC), gbreve (U+011F), scedilla (U+015F) map to ASCII.  The Python
code applies str.replace for each pair in sequence; since every key is a
single character and no value is a key, that equals this per-character
map. -/
def turkishFold (c : Char) : Char :=
  if c.toNat = 231 then 'c'
  else if c.toNat = 305 then 'i'
  else if c.toNat = 252 then 'u'
  else if c.toNat = 287 then 'g'
  else if c.toNat = 351 then 's'
  else c

/-- ASCII whitespace, the core of the regex class used by
re.sub applied to whitespace runs: space, tab, newline, carriage return,
vertical tab, form feed. -/
def isPySpace (c : Char) : Bool :=
  c.toNat = 32 || c.toNat = 9 || c.toNat = 10 || c.toNat = 13 ||
    c.toNat = 11 || c.toNat = 12

/-- Characters kept by _sanitize_filename: lowercase ASCII letters,
digits, and the hyphen. -/
def isFilenameKeep (c : Char) : Bool :=
  (97 ≤ c.toNat && c.toNat ≤ 122) || (48 ≤ c.toNat && c.toNat ≤ 57) ||
    c.toNat = 45

/-- Worker for collapsing whitespace runs: the flag records whether the
previous character was whitespace, so a maximal run produces a single
hyphen (re.sub of a whitespace run by a hyphen). -/
def collapseWsGo : Bool → List Char → List Char
  | _, [] => []
  | inRun, c :: cs =>
    if isPySpace c then
      if inRun then collapseWsGo true cs else '-' :: collapseWsGo true cs
    else c :: collapseWsGo false cs

/-- Replace every maximal whitespace run by a single hyphen
(document_categorizer.py variant). -/
def collapseWs (l : List Char) : List Char :=
  collapseWsGo false l

/-- _sanitize_filename: keep only characters in [a-z0-9-]. -/
def sanitizeFilename (l : List Char) : List Char :=
  l.filter isFilenameKeep

/-- The full normalization of DocumentCategorizer: lowercase,
transliterate, collapse whitespace runs to hyphens, strip everything
outside [a-z0-9-]. -/
def normalizeDC (l : List Char) : List Char :=
  sanitizeFilename (collapseWs ((l.map pyLower).map turkishFold))

/-- The FileRenamer variant: identical except that only the literal
space character (not a whitespace run) is replaced by a hyphen. -/
def normalizeFR (l : List Char) : List Char :=
  sanitizeFilename (((l.map pyLower).map turkishFold).map
    (fun c => if c = ' ' then '-' else c))

/-- Python hyphen-join of a list of strings. -/
def joinHyphen : List (List Char) → List Char
  | [] => []
  | [x] => x
  | x :: xs => x ++ '-' :: joinHyphen xs

/-- DocumentCategorizer._generate_filename: join the non-empty fields of
[topic, date, owner] with hyphens, then normalize. -/
def generateFilename (topic date owner : List Char) : List Char :=
  normalizeDC (joinHyphen (([topic, date, owner]).filter
    (fun s => !s.isEmpty)))

/-! ## Paths and the filesystem model -/

/-- A file path: directory components plus the stem/suffix split that
pathlib exposes (for a path whose final component is name.ext, stem is
name and suffix is the dot plus ext). -/
structure FP where
  dir : List String
  stem : String
  suffix : String
deriving DecidableEq, Repr

/-- pathlib is_relative_to for a file path and a base directory: the
base components are a prefix of the directory components. -/
def isUnder (base : List String) (p : FP) : Bool :=
  base.isPrefixOf p.dir

/-- Contents are abstract byte strings. -/
abbrev Content := Nat

/-- The filesystem: a finite map from paths to contents, as an
association list. -/
abbrev FS := List (FP × Content)

def fsGet : FS → FP → Option Content
  | [], _ => none
  | (q, c) :: rest, p => if q = p then some c else fsGet rest p

/-- Delete a file (no-op when absent, matching the swallowed
FileNotFoundError of the remove path). -/
def fsDel : FS → FP → FS
  | [], _ => []
  | e :: t, p => if e.1 = p then fsDel t p else e :: fsDel t p

/-- Write a file (create or overwrite). -/
def fsSet (fs : FS) (p : FP) (c : Content) : FS :=
  (p, c) :: fsDel fs p

/-- Path existence, the model of pathlib exists. -/
def fsExists (fs : FS) (p : FP) : Bool :=
  (fsGet fs p).isSome

/-! ## ensure_unique_path (file_operator.py and filesystem_manager.py) -/

/-- The candidate built on iteration counter n of the versioning loop:
directory / (stem _ n suffix). -/
def versionedPath (base : FP) (n : Nat) : FP :=
  { dir := base.dir, stem := base.stem ++ "_" ++ toString n,
    suffix := base.suffix }

/-- The while-True loop of ensure_unique_path, with fuel standing in for
the unbounded search: try stem_counter, stem_counter+1, ... until a
candidate does not exist. -/
def ensureUniqueLoop (ex : FP → Bool) (base : FP) : Nat → Nat → Option FP
  | _, 0 => none
  | counter, fuel + 1 =>
    let np := versionedPath base counter
    if ex np then ensureUniqueLoop ex base (counter + 1) fuel else some np

/-- ensure_unique_path: return the base path if nothing exists there,
otherwise search stem_1, stem_2, ... Returns none exactly when the fuel
runs out, modelling the non-terminating run of the Python loop. -/
def ensureUniquePath (ex : FP → Bool) (base : FP) (fuel : Nat) : Option FP :=
  if ex base then ensureUniqueLoop ex base 1 fuel else some base

/-! ## find_duplicate_by_hash (file_operator.py) -/

/-- Lookup in the hash dictionary (a Python dict keyed by digest, each
entry holding the alphabetically sorted list of known paths). -/
def dictLookup {α : Type} [DecidableEq α] : List (α × List FP) → α → Option (List FP)
  | [], _ => none
  | (k, v) :: rest, h => if k = h then some v else dictLookup rest h

/-- FileOperator.find_duplicate_by_hash: stat the candidate (None on
failure), hash it (None on failure), look its hash up, and return the
first stored path of the entry when that path can be statted and its
size equals the candidate size; in every other case return none.
statSize models Path.stat().st_size (none when the file is gone) and
hashOf models compute_hash.  Dictionary entries are created non-empty by
scan_output_directory and _update_hash_dict, so the head lookup mirrors
the Python indexing of element zero. -/
def findDuplicateByHash {α : Type} [DecidableEq α] (dict : List (α × List FP))
    (statSize : FP → Option Nat) (hashOf : FP → Option α) (p : FP) : Option FP :=
  match statSize p with
  | none => none
  | some sz =>
    match hashOf p with
    | none => none
    | some h =>
      match dictLookup dict h with
      | none => none
      | some paths =>
        match paths.head? with
        | none => none
        | some first =>
          match statSize first with
          | none => none
          | some fsz => if fsz = sz then some first else none

/-- Modelled from the spec wording of find_duplicate (for comparison
with the code): if an entry with the candidate hash exists and a stored
path under that hash has the same file size, return the first
(lexicographically smallest) such path; otherwise none.  Entries are
stored sorted, so the head of the matching-size filter is the smallest
matching path. -/
def findDuplicateSpec {α : Type} [DecidableEq α] (dict : List (α × List FP))
    (statSize : FP → Option Nat) (hashOf : FP → Option α) (p : FP) : Option FP :=
  match statSize p with
  | none => none
  | some sz =>
    match hashOf p with
    | none => none
    | some h =>
      match dictLookup dict h with
      | none => none
      | some paths => (paths.filter (fun q => statSize q = some sz)).head?

/-! ## Handler dispatch (document_handlers.py) -/

inductive HandlerKind
  | image
  | doc
  | xlsx
  | pdf
  | text
deriving DecidableEq, Repr

/-- The supported_extensions list of each handler class. -/
def supportedExtensions : HandlerKind → List String
  | .image => [".png", ".jpg", ".jpeg", ".gif", ".bmp", ".tiff", ".tif", ".webp"]
  | .doc => [".doc", ".docx"]
  | .xlsx => [".xlsx"]
  | .pdf => [".pdf"]
  | .text => [".txt", ".text", ".rtf", ".csv", ".tsv"]

/-- Python str.lower on a string, per character. -/
def lowerString (s : String) : String :=
  String.mk (s.data.map pyLower)

/-- get_handler: walk the static handler list in order and return the
first handler whose extension list contains the lowercased extension;
none when no handler matches. -/
def getHandler (extension : String) : Option HandlerKind :=
  ([HandlerKind.image, HandlerKind.doc, HandlerKind.xlsx,
    HandlerKind.pdf, HandlerKind.text]).find?
    (fun h => (supportedExtensions h).contains (lowerString extension))

/-! ## FileOperator filesystem operations (file_operator.py) -/

/-- The two exception classes the operator code distinguishes: the
ValueError raised by its own guards and the OSError family raised by the
OS calls. -/
inductive PyErr
  | valueError
  | osError
deriving DecidableEq, Repr

/-- The configuration of a FileOperator instance. -/
structure OpCtx where
  inputBase : List String
  outputBase : List String
  removeInputFiles : Bool
deriving DecidableEq, Repr

/-- The directory of the unsupported holding area:
output_base_path / "unsupported". -/
def unsupportedDir (ctx : OpCtx) : List String :=
  ctx.outputBase ++ ["unsupported"]

/-- FileOperator.copy_file.  Guard order follows the source: source under
the input base, destination under the output base (each ValueError leaves
the filesystem untouched); then shutil.copy2, whose outcome is the ok
oracle (OSError when the copy fails or the source is gone).  The
mkdir call and the empty-directory cleanup touch no file. -/
def copyFile (ctx : OpCtx) (fs : FS) (src dst : FP) (ok : Bool) :
    Option PyErr × FS :=
  if ¬ isUnder ctx.inputBase src then (some .valueError, fs)
  else if ¬ isUnder ctx.outputBase dst then (some .valueError, fs)
  else
    match fsGet fs src, ok with
    | some c, true => (none, fsSet fs dst c)
    | _, _ => (some .osError, fs)

/-- FileOperator.move_file.  Guards in source order: remove_input_files
must be set, source under input base, destination under output base;
then shutil.move. -/
def moveFile (ctx : OpCtx) (fs : FS) (src dst : FP) (ok : Bool) :
    Option PyErr × FS :=
  if ¬ ctx.removeInputFiles then (some .valueError, fs)
  else if ¬ isUnder ctx.inputBase src then (some .valueError, fs)
  else if ¬ isUnder ctx.outputBase dst then (some .valueError, fs)
  else
    match fsGet fs src, ok with
    | some c, true => (none, fsSet (fsDel fs src) dst c)
    | _, _ => (some .osError, fs)

/-- FileOperator.remove_file.  Guards raise ValueError; the os.remove
call is wrapped in a try that logs and swallows every exception, so a
failing removal returns normally with the filesystem unchanged. -/
def removeFile (ctx : OpCtx) (fs : FS) (p : FP) (ok : Bool) :
    Option PyErr × FS :=
  if ¬ ctx.removeInputFiles then (some .valueError, fs)
  else if ¬ isUnder ctx.inputBase p then (some .valueError, fs)
  else
    match fsGet fs p, ok with
    | some _, true => (none, fsDel fs p)
    | _, _ => (none, fs)

/-! ## The pipeline (pipeline.py) together with move_to_unsupported -/

/-- The outcome of a pipeline-level call: a normal return, a propagated
exception, or a non-terminating run of the versioning loop (fuel
exhaustion). -/
inductive Res
  | ret (fs : FS)
  | raised (e : PyErr) (fs : FS)
  | hang
deriving DecidableEq, Repr

/-- The oracle fixing every outcome the pipeline does not compute
itself: whether the handler produced a working copy, what the classifier
returned (none models any exception inside categorize_document,
including API errors and the empty-filename ValueError), and the
success of each OS call. -/
structure Oracle where
  handlerOk : Bool
  apiResult : Option (String × String)
  copyOk : Bool
  removeOk : Bool
  unsupMoveOk : Bool
  unsupRemoveOk : Bool
deriving Repr

/-- The content hash of a file, as used via compute_hash inside
find_duplicate_by_hash: none when the file cannot be read, otherwise the
digest, modelled as the content itself. -/
def hashOfFile (fs : FS) (p : FP) : Option Content :=
  fsGet fs p

/-- Path.stat().st_size in the model: the size function applied to the
content, none when the file does not exist. -/
def statSizeOf (fs : FS) (sizeFn : Content → Nat) (p : FP) : Option Nat :=
  (fsGet fs p).map sizeFn

/-- The hash dictionary built by scan_output_directory: digest to sorted
list of paths. -/
abbrev HashDict := List (Content × List FP)

/-- The no-duplicate branch of move_to_unsupported:
unsupported_path / file name, versioned to a unique path, then
move_file. -/
def moveToUnsupportedFresh (ctx : OpCtx) (fs : FS) (p : FP) (fuel : Nat)
    (orc : Oracle) : Res :=
  match ensureUniquePath (fsExists fs)
    { dir := unsupportedDir ctx, stem := p.stem, suffix := p.suffix } fuel with
  | none => .hang
  | some u =>
    match moveFile ctx fs p u orc.unsupMoveOk with
    | (some e, fs1) => .raised e fs1
    | (none, fs1) => .ret fs1

/-- FileOperator.move_to_unsupported: if find_duplicate_by_hash finds a
duplicate inside the unsupported area, remove the incoming file and keep
the duplicate; otherwise move the file to a fresh versioned name under
unsupported.  Exceptions raised by remove_file / move_file propagate to
the caller. -/
def moveToUnsupported (ctx : OpCtx) (fs : FS) (dict : HashDict)
    (sizeFn : Content → Nat) (p : FP) (fuel : Nat) (orc : Oracle) : Res :=
  match findDuplicateByHash dict (statSizeOf fs sizeFn) (hashOfFile fs) p with
  | some d =>
    if isUnder (unsupportedDir ctx) d then
      match removeFile ctx fs p orc.unsupRemoveOk with
      | (some e, fs1) => .raised e fs1
      | (none, fs1) => .ret fs1
    else
      moveToUnsupportedFresh ctx fs p fuel orc
  | none => moveToUnsupportedFresh ctx fs p fuel orc

/-- The copy-then-remove tail of move_to_destination: copy the file to
the chosen destination (an OSError from the copy is caught, logged, and
the method returns normally with the filesystem as the copy left it; a
ValueError propagates), then, when remove_input_files is set, remove the
input (a ValueError from remove_file propagates; its OS failures are
swallowed inside remove_file). -/
def placeAndRemove (ctx : OpCtx) (fs : FS) (p np : FP) (orc : Oracle) :
    Option (Option PyErr × FS) :=
  match copyFile ctx fs p np orc.copyOk with
  | (some .osError, fs1) => some (none, fs1)
  | (some .valueError, fs1) => some (some .valueError, fs1)
  | (none, fs1) =>
    if ctx.removeInputFiles then
      match removeFile ctx fs1 p orc.removeOk with
      | (some e, fs2) => some (some e, fs2)
      | (none, fs2) => some (none, fs2)
    else some (none, fs1)

/-- DocumentPipeline.move_to_destination for a file that reached the
placement stage with the given generated filename and category.  Mirrors
the source: build category_path / filename+suffix, consult
find_duplicate_by_hash, on a hit version the duplicate's name with _v2
(made unique), otherwise make the computed name unique if taken; copy;
an OSError from the copy is caught and the method returns normally;
then remove the input when remove_input_files is set (the ValueError
branches of remove_file would propagate, its OSErrors cannot occur since
remove_file swallows OS failures).  The hash-dictionary update touches
no file.  Raised exceptions are reported to the caller (process) which
routes them to move_to_unsupported. -/
def moveToDestination (ctx : OpCtx) (fs : FS) (dict : HashDict)
    (sizeFn : Content → Nat) (p : FP) (filename category : String)
    (fuel : Nat) (orc : Oracle) : Option (Option PyErr × FS) :=
  let newPath : FP :=
    { dir := ctx.outputBase ++ [category], stem := filename, suffix := p.suffix }
  let dup := findDuplicateByHash dict (statSizeOf fs sizeFn) (hashOfFile fs) p
  let target : Option FP :=
    match dup with
    | some d =>
      ensureUniquePath (fsExists fs)
        { dir := d.dir, stem := d.stem ++ "_v2", suffix := d.suffix } fuel
    | none =>
      if fsExists fs newPath then ensureUniquePath (fsExists fs) newPath fuel
      else some newPath
  match target with
  | none => none
  | some np => placeAndRemove ctx fs p np orc

/-- DocumentPipeline.process: extract (no handler or a failed handler or
classifier raises), categorize (unset filename or category makes
move_to_destination raise), place; every exception is caught and routed
to move_to_unsupported, whose own exceptions propagate to the caller. -/
def processPipeline (ctx : OpCtx) (fs : FS) (dict : HashDict)
    (sizeFn : Content → Nat) (p : FP) (fuel : Nat) (orc : Oracle) : Res :=
  match getHandler p.suffix with
  | none => moveToUnsupported ctx fs dict sizeFn p fuel orc
  | some _ =>
    if ¬ orc.handlerOk then
      -- handler.process returned None: categorize raises ValueError
      moveToUnsupported ctx fs dict sizeFn p fuel orc
    else
      match orc.apiResult with
      | none => moveToUnsupported ctx fs dict sizeFn p fuel orc
      | some (filename, category) =>
        if filename = "" ∨ category = "" then
          -- state never set: move_to_destination raises ValueError
          moveToUnsupported ctx fs dict sizeFn p fuel orc
        else
          match moveToDestination ctx fs dict sizeFn p filename category fuel orc with
          | none => .hang
          | some (none, fs1) => .ret fs1
          | some (some _, fs1) => moveToUnsupported ctx fs1 dict sizeFn p fuel orc

/-- The accuracy invariant of the hash dictionary relative to the
filesystem: every recorded path of an entry lies under the output root
and currently holds a file whose digest is the entry key.  This is what
scan_output_directory establishes and _update_hash_dict maintains. -/
def DictAccurate (outputBase : List String) (fs : FS) (dict : HashDict) : Prop :=
  ∀ h ps, dictLookup dict h = some ps →
    ∀ q ∈ ps, isUnder outputBase q = true ∧ fsGet fs q = some h

/-! ## Category resolution (directory_manager.py, api.py) -/

/-- The folder names of config.FOLDERS, the fixed category set. -/
def folderNames : List String :=
  ["medical", "financial", "travel", "personal", "technical", "car",
   "home", "receipts", "work", "education", "tax", "government-it",
   "government-tr", "government-us", "visa-immigration", "misc"]

/-- DirectoryManager.get_category_path: an unknown category falls back
to misc; the result is base_dir / category. -/
def getCategoryPath (baseDir : List String) (category : String) : List String :=
  if folderNames.contains category then baseDir ++ [category]
  else baseDir ++ ["misc"]

/-- Response.model_post_init (api.py): validation of doc_folder against
the Folder enum built from config.FOLDERS; an unknown value raises
ValueError.  Attribute lookup on the enum class is modelled as
membership in the folder-name list. -/
def modelPostInit (docFolder : String) : Except String Unit :=
  if folderNames.contains docFolder then Except.ok ()
  else Except.error "ValueError: invalid folder value"

/-! ## Stability watcher (watcher.py) -/

/-- The per-path record FileState of watcher.py (the path itself is the
key and is kept outside the record). -/
structure WFileState where
  lastModified : Nat
  size : Nat
  stableCount : Nat
deriving DecidableEq, Repr

/-- One observation of the path: the stat result, or missing when stat
raises FileNotFoundError / PermissionError. -/
inductive StatResult
  | found (size mtime : Nat)
  | missing
deriving DecidableEq, Repr

/-- One call of FileEventHandler._check_file_stability for a single
path: given the tracked state (none when the path is not in file_states)
and the current stat result, return the new tracked state and whether
the file was handed to _process_file on this tick.  Mirrors the source:
a failed stat drops the record; an untracked path starts a record with
stable_count zero; an unchanged size and mtime increments the counter
and hands off (deleting the record) once it reaches two; a change
rewrites size and mtime and resets the counter to zero. -/
def checkFileStability : Option WFileState → StatResult → Option WFileState × Bool
  | some st, .found sz mt =>
    if sz = st.size ∧ mt = st.lastModified then
      if 2 ≤ st.stableCount + 1 then (none, true)
      else (some { st with stableCount := st.stableCount + 1 }, false)
    else (some { lastModified := mt, size := sz, stableCount := 0 }, false)
  | none, .found sz mt =>
    (some { lastModified := mt, size := sz, stableCount := 0 }, false)
  | _, .missing => (none, false)

/-- The tracked state after a sequence of observation ticks, starting
from an untracked path. -/
def stateAfter (obs : List StatResult) : Option WFileState :=
  obs.foldl (fun s o => (checkFileStability s o).1) none

/-- Whether tick i of the observation sequence hands the file off. -/
def handoffAt (obs : List StatResult) (i : Nat) : Bool :=
  match obs.get? i with
  | none => false
  | some o => (checkFileStability (stateAfter (obs.take i)) o).2

/-! ## Rate limiter (rate_limiter.py) -/

/-- The pruning loop of wait_if_needed: pop timestamps from the front of
the deque while they are at least one window old. -/
def rlPrune (w now : ℚ) (calls : List ℚ) : List ℚ :=
  calls.dropWhile (fun t => w ≤ now - t)

/-- RateLimiter.wait_if_needed, called at wall-clock time now with the
current deque of admission timestamps (oldest first).  Returns the time
at which the call returns (which is also the appended timestamp) and the
new deque.  The sleep is modelled exactly: it advances the clock by the
computed wait time.  When the deque is full its head exists (the Python
code indexes element zero; with max_calls at least one the branch is
reachable only with a non-empty deque), and the impossible empty case is
modelled as admitting immediately. -/
def waitIfNeeded (maxCalls : Nat) (w : ℚ) (calls : List ℚ) (now : ℚ) :
    ℚ × List ℚ :=
  let calls1 := rlPrune w now calls
  if maxCalls ≤ calls1.length then
    match calls1.head? with
    | some t0 =>
      let waitTime := t0 + w - now
      if 0 < waitTime then
        let now2 := now + waitTime
        let calls2 := rlPrune w now2 calls1
        (now2, calls2 ++ [now2])
      else (now, calls1 ++ [now])
    | none => (now, calls1 ++ [now])
  else (now, calls1 ++ [now])

/-- A sequential trace of wait_if_needed calls: reqs lists the times at
which the callers would like to call; since the limiter is invoked from
a single worker, a call starts no earlier than the return of the
previous one (prev).  Returns the list of admission timestamps. -/
def runRL (maxCalls : Nat) (w : ℚ) : List ℚ → ℚ → List ℚ → List ℚ
  | [], _, _ => []
  | r :: rs, prev, calls =>
    let now := max r prev
    let res := waitIfNeeded maxCalls w calls now
    res.1 :: runRL maxCalls w rs res.1 res.2

/-- The limiter invariant between calls: the deque is sorted oldest
first, bounded by the last return time, holds at most max_calls
entries, contains (as a sub-multiset) every admission newer than one
window before the last return, and all admissions precede the last
return. -/
def RLInv (maxCalls : Nat) (w : ℚ) (adm : List ℚ) (prev : ℚ)
    (calls : List ℚ) : Prop :=
  calls.Pairwise (fun a b => a ≤ b) ∧
  (∀ t ∈ calls, t ≤ prev) ∧
  calls.length ≤ maxCalls ∧
  List.Subperm (adm.filter (fun t => prev - w < t)) calls ∧
  (∀ t ∈ adm, t ≤ prev)

/-- The sliding-window property: every window of length w contains at
most max_calls admissions. -/
def RLWin (maxCalls : Nat) (w : ℚ) (adm : List ℚ) : Prop :=
  ∀ T : ℚ, (adm.filter (fun t => decide (T - w < t ∧ t ≤ T))).length ≤ maxCalls

/-! ## Theorems: filename normalization (C4) -/

theorem pyLower_of_keep (c : Char) (h : isFilenameKeep c = true) :
    pyLower c = c := by
  simp only [isFilenameKeep, Bool.or_eq_true, Bool.and_eq_true,
    decide_eq_true_eq] at h
  unfold pyLower
  rw [if_neg (by omega), if_neg (by omega), if_neg (by omega),
    if_neg (by omega), if_neg (by omega)]

theorem turkishFold_of_keep (c : Char) (h : isFilenameKeep c = true) :
    turkishFold c = c := by
  simp only [isFilenameKeep, Bool.or_eq_true, Bool.and_eq_true,
    decide_eq_true_eq] at h
  unfold turkishFold
  rw [if_neg (by omega), if_neg (by omega), if_neg (by omega),
    if_neg (by omega), if_neg (by omega)]

theorem not_space_of_keep (c : Char) (h : isFilenameKeep c = true) :
    isPySpace c = false := by
  simp only [isFilenameKeep, Bool.or_eq_true, Bool.and_eq_true,
    decide_eq_true_eq] at h
  simp only [isPySpace, Bool.or_eq_false_iff, decide_eq_false_iff_not]
  omega

theorem ne_space_of_keep (c : Char) (h : isFilenameKeep c = true) :
    c ≠ ' ' := by
  intro e
  rw [e] at h
  exact absurd h (by decide)

theorem map_id_of_mem {α : Type} {f : α → α} {l : List α}
    (h : ∀ c ∈ l, f c = c) : l.map f = l := by
  induction l with
  | nil => rfl
  | cons a t ih =>
    simp only [List.map_cons, h a (List.mem_cons_self a t),
      ih (fun c hc => h c (List.mem_cons_of_mem a hc))]

theorem collapseWsGo_of_no_space {l : List Char}
    (h : ∀ c ∈ l, isPySpace c = false) : ∀ b, collapseWsGo b l = l := by
  induction l with
  | nil => intro b; rfl
  | cons a t ih =>
    intro b
    have ha := h a (List.mem_cons_self a t)
    simp only [collapseWsGo, ha, Bool.false_eq_true, if_false, List.cons.injEq,
      true_and]
    exact ih (fun c hc => h c (List.mem_cons_of_mem a hc)) false

theorem keep_of_mem_sanitize {l : List Char} {c : Char}
    (h : c ∈ sanitizeFilename l) : isFilenameKeep c = true :=
  (List.mem_filter.mp h).2

theorem sanitize_of_keep {l : List Char}
    (h : ∀ c ∈ l, isFilenameKeep c = true) : sanitizeFilename l = l :=
  List.filter_eq_self.mpr h

theorem normalizeDC_of_keep {l : List Char}
    (h : ∀ c ∈ l, isFilenameKeep c = true) : normalizeDC l = l := by
  unfold normalizeDC
  rw [map_id_of_mem (fun c hc => pyLower_of_keep c (h c hc)),
    map_id_of_mem (fun c hc => turkishFold_of_keep c (h c hc))]
  unfold collapseWs
  rw [collapseWsGo_of_no_space (fun c hc => not_space_of_keep c (h c hc)) false,
    sanitize_of_keep h]

theorem normalizeFR_of_keep {l : List Char}
    (h : ∀ c ∈ l, isFilenameKeep c = true) : normalizeFR l = l := by
  unfold normalizeFR
  rw [map_id_of_mem (fun c hc => pyLower_of_keep c (h c hc)),
    map_id_of_mem (fun c hc => turkishFold_of_keep c (h c hc)),
    map_id_of_mem (fun c hc => if_neg (ne_space_of_keep c (h c hc))),
    sanitize_of_keep h]

/-- C4: the filename normalization (hyphen-join the non-empty fields,
lowercase, transliterate the Turkish letters, collapse whitespace to
hyphens, strip everything outside [a-z0-9-]) is idempotent, in both the
document_categorizer.py form and the file_renamer.py form, and the full
_generate_filename output is a fixed point of the normalization. -/
theorem normalize_idempotent (l topic date owner : List Char) :
    normalizeDC (normalizeDC l) = normalizeDC l ∧
    normalizeFR (normalizeFR l) = normalizeFR l ∧
    normalizeDC (generateFilename topic date owner) =
      generateFilename topic date owner := by
  refine ⟨?_, ?_, ?_⟩
  · exact normalizeDC_of_keep (fun c hc => keep_of_mem_sanitize hc)
  · exact normalizeFR_of_keep (fun c hc => keep_of_mem_sanitize hc)
  · exact normalizeDC_of_keep (fun c hc => keep_of_mem_sanitize hc)

/-! ## Theorems: ensure_unique_path (C5) -/

theorem ensureUniqueLoop_some {ex : FP → Bool} {base : FP} :
    ∀ {fuel counter : Nat} {p : FP},
      ensureUniqueLoop ex base counter fuel = some p →
      ∃ k, k < fuel ∧ p = versionedPath base (counter + k) ∧ ex p = false ∧
        ∀ j, j < k → ex (versionedPath base (counter + j)) = true := by
  intro fuel
  induction fuel with
  | zero => intro counter p h; exact absurd h (by simp [ensureUniqueLoop])
  | succ n ih =>
    intro counter p h
    simp only [ensureUniqueLoop] at h
    cases hx : ex (versionedPath base counter) with
    | true =>
      rw [if_pos hx] at h
      obtain ⟨k, hk, hp, hex, hall⟩ := ih h
      have harith : counter + 1 + k = counter + (k + 1) := by omega
      refine ⟨k + 1, by omega, by rw [hp, harith], hex, ?_⟩
      intro j hj
      cases j with
      | zero => simpa using hx
      | succ j =>
        have harith2 : counter + (j + 1) = counter + 1 + j := by omega
        rw [harith2]
        exact hall j (by omega)
    | false =>
      rw [if_neg (by rw [hx]; exact Bool.false_ne_true)] at h
      refine ⟨0, by omega, ?_, ?_, fun j hj => absurd hj (by omega)⟩
      · rw [← Option.some_inj.mp h]; simp
      · rw [← Option.some_inj.mp h]; exact hx

theorem ensureUniqueLoop_complete {ex : FP → Bool} {base : FP} :
    ∀ {fuel counter n : Nat}, counter ≤ n → n < counter + fuel →
      ex (versionedPath base n) = false →
      ∃ p, ensureUniqueLoop ex base counter fuel = some p := by
  intro fuel
  induction fuel with
  | zero => intro counter n h1 h2 _; omega
  | succ f ih =>
    intro counter n h1 h2 hfree
    cases hx : ex (versionedPath base counter) with
    | false =>
      exact ⟨versionedPath base counter, by simp [ensureUniqueLoop, hx]⟩
    | true =>
      have hne : counter ≠ n := by
        intro e; rw [e, hfree] at hx; exact Bool.false_ne_true hx
      obtain ⟨p, hp⟩ := @ih (counter + 1) n (by omega) (by omega) hfree
      exact ⟨p, by simp only [ensureUniqueLoop, hx, if_true]; exact hp⟩

theorem ensureUniquePath_some_free {ex : FP → Bool} {base : FP} {fuel : Nat}
    {p : FP} (h : ensureUniquePath ex base fuel = some p) : ex p = false := by
  unfold ensureUniquePath at h
  cases hx : ex base with
  | false =>
    rw [hx] at h
    simp only [Bool.false_eq_true, if_false, Option.some_inj] at h
    rw [← h]; exact hx
  | true =>
    rw [hx, if_pos rfl] at h
    obtain ⟨k, _, _, hfree, _⟩ := ensureUniqueLoop_some h
    exact hfree

theorem ensureUniquePath_some_dir {ex : FP → Bool} {base : FP} {fuel : Nat}
    {p : FP} (h : ensureUniquePath ex base fuel = some p) :
    p.dir = base.dir ∧ p.suffix = base.suffix := by
  unfold ensureUniquePath at h
  cases hx : ex base with
  | false =>
    rw [hx] at h
    simp only [Bool.false_eq_true, if_false, Option.some_inj] at h
    rw [← h]; exact ⟨rfl, rfl⟩
  | true =>
    rw [hx, if_pos rfl] at h
    obtain ⟨k, _, hp, _, _⟩ := ensureUniqueLoop_some h
    rw [hp]; exact ⟨rfl, rfl⟩

/-- C5: ensure_unique_path returns the base path exactly when nothing
exists there; otherwise it returns the candidate with the least counter
n at least one whose versioned name (stem_n, original extension kept)
does not exist; the returned path never names an existing file; and for
any free version inside the fuel bound the search succeeds, so it is
robust to arbitrarily many prior versions. -/
theorem ensure_unique_path_spec (ex : FP → Bool) (base : FP) (fuel : Nat) :
    (ex base = false → ensureUniquePath ex base fuel = some base) ∧
    (∀ p, ensureUniquePath ex base fuel = some p → ex p = false) ∧
    (ex base = true → ∀ p, ensureUniquePath ex base fuel = some p →
      ∃ n, 1 ≤ n ∧ p = versionedPath base n ∧
        ex (versionedPath base n) = false ∧
        ∀ m, 1 ≤ m → m < n → ex (versionedPath base m) = true) ∧
    (∀ n, 1 ≤ n → n ≤ fuel → ex (versionedPath base n) = false →
      ∃ p, ensureUniquePath ex base fuel = some p) := by
  refine ⟨?_, ?_, ?_, ?_⟩
  · intro h; simp [ensureUniquePath, h]
  · intro p h; exact ensureUniquePath_some_free h
  · intro hx p h
    rw [ensureUniquePath, if_pos hx] at h
    obtain ⟨k, hk, hp, hfree, hall⟩ := ensureUniqueLoop_some h
    refine ⟨1 + k, by omega, hp, by rw [← hp]; exact hfree, ?_⟩
    intro m h1 h2
    have : m = 1 + (m - 1) := by omega
    rw [this]
    exact hall (m - 1) (by omega)
  · intro n h1 h2 hfree
    cases hx : ex base with
    | false => exact ⟨base, by simp [ensureUniquePath, hx]⟩
    | true =>
      obtain ⟨p, hp⟩ := @ensureUniqueLoop_complete ex base fuel 1 n h1
        (by omega) hfree
      exact ⟨p, by rw [ensureUniquePath, if_pos hx]; exact hp⟩

/-- Witness for C5: with name.ext and name_1.ext already present, the
search returns name_2.ext, a path that does not exist (the three-file
versioning scenario). -/
theorem ensure_unique_path_witness :
    ensureUniquePath
      (fun q => decide (q = { dir := ["out"], stem := "name", suffix := ".ext" } ∨
        q = versionedPath { dir := ["out"], stem := "name", suffix := ".ext" } 1))
      { dir := ["out"], stem := "name", suffix := ".ext" } 3 =
      some (versionedPath { dir := ["out"], stem := "name", suffix := ".ext" } 2) ∧
    (fun q => decide (q = { dir := ["out"], stem := "name", suffix := ".ext" } ∨
        q = versionedPath { dir := ["out"], stem := "name", suffix := ".ext" } 1))
      (versionedPath { dir := ["out"], stem := "name", suffix := ".ext" } 2) = false := by
  constructor
  · decide
  · exact (ensure_unique_path_spec
      (fun q => decide (q = { dir := ["out"], stem := "name", suffix := ".ext" } ∨
        q = versionedPath { dir := ["out"], stem := "name", suffix := ".ext" } 1))
      { dir := ["out"], stem := "name", suffix := ".ext" } 3).2.1
      (versionedPath { dir := ["out"], stem := "name", suffix := ".ext" } 2)
      (by decide)

/-! ## Theorems: find_duplicate_by_hash (C6) -/

/-- C6 (amended): find_duplicate_by_hash returns a duplicate exactly
when the candidate can be statted and hashed, the dictionary has an
entry for the hash, and the FIRST (lexicographically smallest) stored
path of that entry can be statted with the candidate's size.  Only the
first stored path is consulted: a later path of the entry with a
matching size is never returned. -/
theorem find_duplicate_first_only {α : Type} [DecidableEq α]
    (dict : List (α × List FP)) (statSize : FP → Option Nat)
    (hashOf : FP → Option α) (p q : FP) :
    findDuplicateByHash dict statSize hashOf p = some q ↔
      ∃ sz h paths, statSize p = some sz ∧ hashOf p = some h ∧
        dictLookup dict h = some paths ∧ paths.head? = some q ∧
        statSize q = some sz := by
  constructor
  · intro hfd
    unfold findDuplicateByHash at hfd
    cases hsp : statSize p with
    | none => simp [hsp] at hfd
    | some sz =>
      simp only [hsp] at hfd
      cases hh : hashOf p with
      | none => simp [hh] at hfd
      | some h =>
        simp only [hh] at hfd
        cases hd : dictLookup dict h with
        | none => simp [hd] at hfd
        | some paths =>
          simp only [hd] at hfd
          cases hhd : paths.head? with
          | none => simp [hhd] at hfd
          | some first =>
            simp only [hhd] at hfd
            cases hsf : statSize first with
            | none => simp [hsf] at hfd
            | some fsz =>
              simp only [hsf] at hfd
              by_cases he : fsz = sz
              · rw [if_pos he] at hfd
                have hq : first = q := Option.some_inj.mp hfd
                exact ⟨sz, h, paths, rfl, rfl, hd, by rw [← hq]; exact hhd,
                  by rw [← hq, hsf, he]⟩
              · rw [if_neg he] at hfd; exact absurd hfd (by simp)
  · rintro ⟨sz, h, paths, h1, h2, h3, h4, h5⟩
    unfold findDuplicateByHash
    simp only [h1, h2, h3, h4, h5]
    simp

/-- Counterexample for C6 as stated: the entry for hash 7 holds the
sorted paths a.pdf (stale, size 5) and b.pdf (size 10); the candidate
has size 10.  The claim says the lexicographically smallest stored path
with matching size, b.pdf, is returned; the code checks only the first
stored path's size, finds 5, and reports no duplicate. -/
theorem find_duplicate_counterexample :
    findDuplicateByHash
      [((7 : Nat), [{ dir := ["out"], stem := "a", suffix := ".pdf" },
        { dir := ["out"], stem := "b", suffix := ".pdf" }])]
      (fun q => if q = { dir := ["out"], stem := "a", suffix := ".pdf" }
        then some 5 else some 10)
      (fun _ => some (7 : Nat)) { dir := ["in"], stem := "x", suffix := ".pdf" }
      = none ∧
    findDuplicateSpec
      [((7 : Nat), [{ dir := ["out"], stem := "a", suffix := ".pdf" },
        { dir := ["out"], stem := "b", suffix := ".pdf" }])]
      (fun q => if q = { dir := ["out"], stem := "a", suffix := ".pdf" }
        then some 5 else some 10)
      (fun _ => some (7 : Nat)) { dir := ["in"], stem := "x", suffix := ".pdf" }
      = some { dir := ["out"], stem := "b", suffix := ".pdf" } := by
  exact ⟨by decide, by decide⟩

/-- Witness for C6: a positive instance where the first stored path has
the matching size and is returned. -/
theorem find_duplicate_witness :
    ∃ sz h paths,
      (fun (_ : FP) => some (10 : Nat)) { dir := ["in"], stem := "x", suffix := ".pdf" } = some sz ∧
      (fun (_ : FP) => some (7 : Nat)) { dir := ["in"], stem := "x", suffix := ".pdf" } = some h ∧
      dictLookup [((7 : Nat), [{ dir := ["out"], stem := "a", suffix := ".pdf" }])] h = some paths ∧
      paths.head? = some { dir := ["out"], stem := "a", suffix := ".pdf" } ∧
      (fun (_ : FP) => some (10 : Nat)) { dir := ["out"], stem := "a", suffix := ".pdf" } = some sz :=
  (find_duplicate_first_only
    [((7 : Nat), [{ dir := ["out"], stem := "a", suffix := ".pdf" }])]
    (fun _ => some 10) (fun _ => some 7)
    { dir := ["in"], stem := "x", suffix := ".pdf" }
    { dir := ["out"], stem := "a", suffix := ".pdf" }).mp (by decide)

/-! ## Filesystem map lemmas -/

theorem fsGet_del_self (fs : FS) (p : FP) : fsGet (fsDel fs p) p = none := by
  induction fs with
  | nil => rfl
  | cons e t ih =>
    by_cases he : e.1 = p
    · simpa [fsDel, he] using ih
    · simpa [fsDel, he, fsGet] using ih

theorem fsGet_del_ne (fs : FS) (p q : FP) (h : q ≠ p) :
    fsGet (fsDel fs p) q = fsGet fs q := by
  induction fs with
  | nil => rfl
  | cons e t ih =>
    simp only [fsDel]
    by_cases he : e.1 = p
    · rw [if_pos he, ih]
      have hq : ¬ e.1 = q := by rw [he]; exact fun hh => h hh.symm
      simp [fsGet, hq]
    · rw [if_neg he]
      simp only [fsGet]
      by_cases hq : e.1 = q
      · rw [if_pos hq, if_pos hq]
      · rw [if_neg hq, if_neg hq]; exact ih

theorem fsGet_set_self (fs : FS) (p : FP) (c : Content) :
    fsGet (fsSet fs p c) p = some c := by
  simp [fsSet, fsGet]

theorem fsGet_set_ne (fs : FS) (p : FP) (c : Content) (q : FP) (h : q ≠ p) :
    fsGet (fsSet fs p c) q = fsGet fs q := by
  have hp : p ≠ q := fun hh => h hh.symm
  simp only [fsSet, fsGet, hp, if_false]
  exact fsGet_del_ne fs p q h

/-! ## Theorems: FileOperator guards and confinement (C10) -/

/-- C10: copy_file and move_file raise ValueError with the filesystem
untouched unless the source is under the input base and the destination
under the output base (move_file additionally requires
remove_input_files); remove_file raises ValueError with the filesystem
untouched unless removal is enabled and the target is under the input
base; and on any outcome a copy changes at most the destination (inside
the output root), a move changes at most the destination (inside the
output root) plus the removed source (inside the input root), and a
removal deletes at most its target (inside the input root). -/
theorem file_operator_confinement (ctx : OpCtx) (fs : FS) (src dst p : FP)
    (ok : Bool) :
    (isUnder ctx.inputBase src = false ∨ isUnder ctx.outputBase dst = false →
      copyFile ctx fs src dst ok = (some .valueError, fs)) ∧
    (ctx.removeInputFiles = false ∨ isUnder ctx.inputBase src = false ∨
        isUnder ctx.outputBase dst = false →
      moveFile ctx fs src dst ok = (some .valueError, fs)) ∧
    (ctx.removeInputFiles = false ∨ isUnder ctx.inputBase p = false →
      removeFile ctx fs p ok = (some .valueError, fs)) ∧
    (∀ q, fsGet (copyFile ctx fs src dst ok).2 q ≠ fsGet fs q →
      q = dst ∧ isUnder ctx.outputBase dst = true) ∧
    (∀ q, fsGet (moveFile ctx fs src dst ok).2 q ≠ fsGet fs q →
      (q = dst ∧ isUnder ctx.outputBase dst = true) ∨
      (q = src ∧ isUnder ctx.inputBase src = true ∧
        fsGet (moveFile ctx fs src dst ok).2 q = none)) ∧
    (∀ q, fsGet (removeFile ctx fs p ok).2 q ≠ fsGet fs q →
      q = p ∧ isUnder ctx.inputBase p = true ∧
      fsGet (removeFile ctx fs p ok).2 q = none) := by
  refine ⟨?_, ?_, ?_, ?_, ?_, ?_⟩
  · rintro (h | h)
    · unfold copyFile; rw [if_pos (by rw [h]; exact Bool.false_ne_true)]
    · unfold copyFile
      by_cases hs : isUnder ctx.inputBase src = true
      · rw [if_neg (by rw [hs]; exact not_not_intro rfl),
          if_pos (by rw [h]; exact Bool.false_ne_true)]
      · rw [if_pos hs]
  · rintro (h | h | h)
    · unfold moveFile; rw [if_pos (by rw [h]; exact Bool.false_ne_true)]
    · unfold moveFile
      by_cases hr : ctx.removeInputFiles = true
      · rw [if_neg (by rw [hr]; exact not_not_intro rfl),
          if_pos (by rw [h]; exact Bool.false_ne_true)]
      · rw [if_pos (by simpa using hr)]
    · unfold moveFile
      by_cases hr : ctx.removeInputFiles = true
      · rw [if_neg (by rw [hr]; exact not_not_intro rfl)]
        by_cases hs : isUnder ctx.inputBase src = true
        · rw [if_neg (by rw [hs]; exact not_not_intro rfl),
            if_pos (by rw [h]; exact Bool.false_ne_true)]
        · rw [if_pos hs]
      · rw [if_pos (by simpa using hr)]
  · rintro (h | h)
    · unfold removeFile; rw [if_pos (by rw [h]; exact Bool.false_ne_true)]
    · unfold removeFile
      by_cases hr : ctx.removeInputFiles = true
      · rw [if_neg (by rw [hr]; exact not_not_intro rfl),
          if_pos (by rw [h]; exact Bool.false_ne_true)]
      · rw [if_pos (by simpa using hr)]
  · intro q hq
    unfold copyFile at hq
    by_cases hs : isUnder ctx.inputBase src = true
    · rw [if_neg (by rw [hs]; exact not_not_intro rfl)] at hq
      by_cases hd : isUnder ctx.outputBase dst = true
      · rw [if_neg (by rw [hd]; exact not_not_intro rfl)] at hq
        cases hg : fsGet fs src with
        | none => rw [hg] at hq; cases ok <;> exact absurd rfl hq
        | some c =>
          rw [hg] at hq
          cases ok with
          | false => exact absurd rfl hq
          | true =>
            by_cases hqd : q = dst
            · exact ⟨hqd, hd⟩
            · rw [fsGet_set_ne fs dst c q hqd] at hq
              exact absurd rfl hq
      · rw [if_pos hd] at hq; exact absurd rfl hq
    · rw [if_pos hs] at hq; exact absurd rfl hq
  · intro q hq
    unfold moveFile at hq
    by_cases hr : ctx.removeInputFiles = true
    · rw [if_neg (by rw [hr]; exact not_not_intro rfl)] at hq
      by_cases hs : isUnder ctx.inputBase src = true
      · rw [if_neg (by rw [hs]; exact not_not_intro rfl)] at hq
        by_cases hd : isUnder ctx.outputBase dst = true
        · rw [if_neg (by rw [hd]; exact not_not_intro rfl)] at hq
          cases hg : fsGet fs src with
          | none => rw [hg] at hq; cases ok <;> exact absurd rfl hq
          | some c =>
            rw [hg] at hq
            cases ok with
            | false => exact absurd rfl hq
            | true =>
              have hM : (moveFile ctx fs src dst true).2 =
                  fsSet (fsDel fs src) dst c := by
                unfold moveFile
                rw [if_neg (by rw [hr]; exact not_not_intro rfl),
                  if_neg (by rw [hs]; exact not_not_intro rfl),
                  if_neg (by rw [hd]; exact not_not_intro rfl), hg]
              by_cases hqd : q = dst
              · exact Or.inl ⟨hqd, hd⟩
              · rw [fsGet_set_ne (fsDel fs src) dst c q hqd] at hq
                by_cases hqs : q = src
                · refine Or.inr ⟨hqs, hs, ?_⟩
                  rw [hM, fsGet_set_ne (fsDel fs src) dst c q hqd, hqs]
                  exact fsGet_del_self fs src
                · rw [fsGet_del_ne fs src q hqs] at hq
                  exact absurd rfl hq
        · rw [if_pos hd] at hq; exact absurd rfl hq
      · rw [if_pos hs] at hq; exact absurd rfl hq
    · rw [if_pos (by simpa using hr)] at hq; exact absurd rfl hq
  · intro q hq
    unfold removeFile at hq
    by_cases hr : ctx.removeInputFiles = true
    · rw [if_neg (by rw [hr]; exact not_not_intro rfl)] at hq
      by_cases hs : isUnder ctx.inputBase p = true
      · rw [if_neg (by rw [hs]; exact not_not_intro rfl)] at hq
        cases hg : fsGet fs p with
        | none => rw [hg] at hq; cases ok <;> exact absurd rfl hq
        | some c =>
          rw [hg] at hq
          cases ok with
          | false => exact absurd rfl hq
          | true =>
            by_cases hqp : q = p
            · refine ⟨hqp, hs, ?_⟩
              unfold removeFile
              rw [if_neg (by rw [hr]; exact not_not_intro rfl),
                if_neg (by rw [hs]; exact not_not_intro rfl), hg, hqp]
              exact fsGet_del_self fs p
            · rw [fsGet_del_ne fs p q hqp] at hq
              exact absurd rfl hq
      · rw [if_pos hs] at hq; exact absurd rfl hq
    · rw [if_pos (by simpa using hr)] at hq; exact absurd rfl hq

/-- Witness for C10: a copy into a destination outside the output root
raises ValueError and leaves the filesystem untouched; a successful copy
changes exactly its destination, which lies under the output root. -/
theorem file_operator_confinement_witness :
    copyFile { inputBase := ["in"], outputBase := ["out"], removeInputFiles := true }
      [({ dir := ["in"], stem := "x", suffix := ".txt" }, 3)]
      { dir := ["in"], stem := "x", suffix := ".txt" }
      { dir := ["elsewhere"], stem := "y", suffix := ".txt" } true =
      (some .valueError,
        [({ dir := ["in"], stem := "x", suffix := ".txt" }, 3)]) ∧
    ({ dir := ["out"], stem := "y", suffix := ".txt" } : FP) =
        { dir := ["out"], stem := "y", suffix := ".txt" } ∧
      isUnder ["out"] ({ dir := ["out"], stem := "y", suffix := ".txt" } : FP) = true := by
  constructor
  · exact (file_operator_confinement
      { inputBase := ["in"], outputBase := ["out"], removeInputFiles := true }
      [({ dir := ["in"], stem := "x", suffix := ".txt" }, 3)]
      { dir := ["in"], stem := "x", suffix := ".txt" }
      { dir := ["elsewhere"], stem := "y", suffix := ".txt" }
      { dir := ["in"], stem := "x", suffix := ".txt" } true).1 (Or.inr (by decide))
  · exact (file_operator_confinement
      { inputBase := ["in"], outputBase := ["out"], removeInputFiles := true }
      [({ dir := ["in"], stem := "x", suffix := ".txt" }, 3)]
      { dir := ["in"], stem := "x", suffix := ".txt" }
      { dir := ["out"], stem := "y", suffix := ".txt" }
      { dir := ["in"], stem := "x", suffix := ".txt" } true).2.2.2.1
      { dir := ["out"], stem := "y", suffix := ".txt" } (by decide)

/-! ## Theorems: category resolution (C8) -/

/-- C8 (amended): get_category_path resolves an unknown category to
misc and always produces a directory of the fixed category set under the
base directory; but Response.model_post_init raises ValueError on a
doc_folder outside the enumerated set instead of degrading it to misc,
so classification results routed through the response validation fail
the document on an invalid category. -/
theorem category_fallback (baseDir : List String) :
    (∀ category, folderNames.contains category = false →
      getCategoryPath baseDir category = baseDir ++ ["misc"]) ∧
    (∀ category, ∃ f, folderNames.contains f = true ∧
      getCategoryPath baseDir category = baseDir ++ [f]) ∧
    (∀ f, modelPostInit f = Except.ok () ↔ folderNames.contains f = true) := by
  refine ⟨?_, ?_, ?_⟩
  · intro category h
    unfold getCategoryPath
    rw [if_neg (by rw [h]; exact Bool.false_ne_true)]
  · intro category
    by_cases hc : folderNames.contains category = true
    · exact ⟨category, hc, by unfold getCategoryPath; rw [if_pos hc]⟩
    · refine ⟨"misc", by decide, ?_⟩
      unfold getCategoryPath
      rw [if_neg hc]
  · intro f
    unfold modelPostInit
    by_cases hc : folderNames.contains f = true
    · rw [if_pos hc]; exact ⟨fun _ => hc, fun _ => rfl⟩
    · rw [if_neg hc]
      constructor
      · intro he; exact absurd he (by simp)
      · intro hcc; exact absurd hcc hc

/-- Counterexample for C8 as stated: on the spec's own concrete
scenario, folder nonexistent-category, the response validation raises
ValueError (the document fails) instead of resolving to misc. -/
theorem category_fail_counterexample :
    modelPostInit "nonexistent-category" =
      Except.error "ValueError: invalid folder value" ∧
    folderNames.contains "nonexistent-category" = false := by
  exact ⟨by rfl, by decide⟩

/-- Witness for C8: an unknown category resolves to misc through
get_category_path, and a valid category passes validation. -/
theorem category_fallback_witness :
    getCategoryPath ["out"] "nonexistent-category" = ["out", "misc"] ∧
    modelPostInit "work" = Except.ok () := by
  constructor
  · exact (category_fallback ["out"]).1 "nonexistent-category" (by decide)
  · exact ((category_fallback ["out"]).2.2 "work").mpr (by decide)

/-! ## Theorems: watcher stability (C3) -/

theorem stateAfter_append (l : List StatResult) (o : StatResult) :
    stateAfter (l ++ [o]) = (checkFileStability (stateAfter l) o).1 := by
  unfold stateAfter
  rw [List.foldl_append]
  rfl

/-- Invariant of the tracked state: the counter never exceeds one (a
count of two hands off and clears the record); the stored size and
mtime always equal the last observation; and a counter of one means the
last two observations both reported the stored size and mtime. -/
theorem stateAfter_inv (obs : List StatResult) :
    ∀ st, stateAfter obs = some st →
      st.stableCount ≤ 1 ∧
      1 ≤ obs.length ∧
      obs.get? (obs.length - 1) =
        some (.found st.size st.lastModified) ∧
      (st.stableCount = 1 → 2 ≤ obs.length ∧
        obs.get? (obs.length - 2) =
          some (.found st.size st.lastModified)) := by
  induction obs using List.reverseRecOn with
  | nil => intro st h; exact absurd h (by simp [stateAfter])
  | append_singleton l o ih =>
    intro st h
    rw [stateAfter_append] at h
    cases o with
    | missing =>
      exfalso
      cases hs : stateAfter l with
      | none => rw [hs] at h; exact absurd h (by simp [checkFileStability])
      | some st0 => rw [hs] at h; exact absurd h (by simp [checkFileStability])
    | found sz mt =>
      cases hs : stateAfter l with
      | none =>
        rw [hs] at h
        simp only [checkFileStability, Option.some_inj] at h
        rw [← h]
        refine ⟨Nat.zero_le 1, by simp, ?_, fun hc => by simp at hc⟩
        simp only [List.length_append, List.length_singleton,
          Nat.add_sub_cancel]
        exact List.get?_concat_length l _
      | some st0 =>
        rw [hs] at h
        simp only [checkFileStability] at h
        by_cases hm : sz = st0.size ∧ mt = st0.lastModified
        · rw [if_pos hm] at h
          by_cases h2 : 2 ≤ st0.stableCount + 1
          · rw [if_pos h2] at h
            exact absurd h (by simp)
          · rw [if_neg h2] at h
            obtain ⟨hc1, hl1, hlast, _⟩ := ih st0 hs
            have hcount : st0.stableCount = 0 := by omega
            simp only [Option.some_inj] at h
            rw [← h]
            refine ⟨?_, by simp, ?_, ?_⟩
            · show st0.stableCount + 1 ≤ 1
              omega
            · simp only [List.length_append, List.length_singleton,
                Nat.add_sub_cancel]
              show (l ++ [StatResult.found sz mt]).get? l.length =
                some (StatResult.found st0.size st0.lastModified)
              rw [hm.1, hm.2]
              exact List.get?_concat_length l _
            · intro _
              refine ⟨by simp; omega, ?_⟩
              have hidx : l.length + 1 - 2 = l.length - 1 := by omega
              simp only [List.length_append, List.length_singleton, hidx]
              rw [List.get?_append (by omega)]
              exact hlast
        · rw [if_neg hm] at h
          simp only [Option.some_inj] at h
          rw [← h]
          refine ⟨Nat.zero_le 1, by simp, ?_, fun hc => by simp at hc⟩
          simp only [List.length_append, List.length_singleton,
            Nat.add_sub_cancel]
          exact List.get?_concat_length l _

/-- C3: the watcher hands a path off only when the last two observation
ticks (and the stored state they extended) all reported the same size
and modification time, i.e. the file was observed unchanged for at
least two consecutive ticks; and any observed change of size or mtime
resets the consecutive-stable counter to zero. -/
theorem watcher_two_stable_ticks :
    (∀ obs i, handoffAt obs i = true →
      2 ≤ i ∧ ∃ sz mt,
        obs.get? i = some (.found sz mt) ∧
        obs.get? (i - 1) = some (.found sz mt) ∧
        obs.get? (i - 2) = some (.found sz mt)) ∧
    (∀ st sz mt, ¬ (sz = st.size ∧ mt = st.lastModified) →
      checkFileStability (some st) (.found sz mt) =
        (some { lastModified := mt, size := sz, stableCount := 0 }, false)) := by
  constructor
  · intro obs i h
    unfold handoffAt at h
    cases hg : obs.get? i with
    | none => rw [hg] at h; exact absurd h (by simp)
    | some o =>
      rw [hg] at h
      have hi : i < obs.length := List.get?_eq_some.mp hg |>.1
      cases o with
      | missing =>
        exfalso
        cases hs : stateAfter (obs.take i) with
        | none => rw [hs] at h; exact absurd h (by simp [checkFileStability])
        | some st0 => rw [hs] at h; exact absurd h (by simp [checkFileStability])
      | found sz mt =>
        cases hs : stateAfter (obs.take i) with
        | none =>
          rw [hs] at h
          exact absurd h (by simp [checkFileStability])
        | some st0 =>
          rw [hs] at h
          simp only [checkFileStability] at h
          by_cases hm : sz = st0.size ∧ mt = st0.lastModified
          · rw [if_pos hm] at h
            by_cases h2 : 2 ≤ st0.stableCount + 1
            · obtain ⟨hc1, hl1, hlast, hone⟩ := stateAfter_inv (obs.take i) st0 hs
              have hcount : st0.stableCount = 1 := by omega
              have hlen : (obs.take i).length = i := by
                rw [List.length_take]
                omega
              obtain ⟨hge2, hprev2⟩ := hone hcount
              rw [hlen] at hlast hprev2 hge2
              refine ⟨hge2, sz, mt, rfl, ?_, ?_⟩
              · rw [List.get?_take (by omega)] at hlast
                rw [hm.1, hm.2]
                exact hlast
              · rw [List.get?_take (by omega)] at hprev2
                rw [hm.1, hm.2]
                exact hprev2
            · rw [if_neg h2] at h
              exact absurd h (by simp)
          · rw [if_neg hm] at h
            exact absurd h (by simp)
  · intro st sz mt h
    simp only [checkFileStability]
    rw [if_neg h]

/-- Witness for C3: three identical observations hand the file off on
the third tick (index two), and a changed observation resets the
counter. -/
theorem watcher_witness :
    handoffAt [.found 10 5, .found 10 5, .found 10 5] 2 = true ∧
    (2 ≤ 2 ∧ ∃ sz mt,
      ([StatResult.found 10 5, .found 10 5, .found 10 5]).get? 2 =
        some (.found sz mt) ∧
      ([StatResult.found 10 5, .found 10 5, .found 10 5]).get? 1 =
        some (.found sz mt) ∧
      ([StatResult.found 10 5, .found 10 5, .found 10 5]).get? 0 =
        some (.found sz mt)) ∧
    checkFileStability (some { lastModified := 5, size := 10, stableCount := 1 })
      (.found 11 5) =
      (some { lastModified := 5, size := 11, stableCount := 0 }, false) := by
  refine ⟨by decide, ?_, ?_⟩
  · exact watcher_two_stable_ticks.1 [.found 10 5, .found 10 5, .found 10 5] 2
      (by decide)
  · exact watcher_two_stable_ticks.2
      { lastModified := 5, size := 10, stableCount := 1 } 11 5
      (by intro hc; exact absurd hc.1 (by decide))

/-! ## Path-prefix lemmas -/

theorem isPrefixOf_append_self (b t : List String) :
    b.isPrefixOf (b ++ t) = true := by
  induction b with
  | nil => simp [List.isPrefixOf]
  | cons a b ih => simp [List.isPrefixOf, ih]

theorem isPrefixOf_append_weaken (b s : List String) :
    ∀ d, (b ++ s).isPrefixOf d = true → b.isPrefixOf d = true := by
  induction b with
  | nil => intro d _; simp [List.isPrefixOf]
  | cons a b ih =>
    intro d h
    cases d with
    | nil => simp [List.isPrefixOf] at h
    | cons x d =>
      simp only [List.cons_append, List.isPrefixOf, Bool.and_eq_true] at h ⊢
      exact ⟨h.1, ih d h.2⟩

theorem isUnder_dir_append (base extra : List String) (st sf : String) :
    isUnder base { dir := base ++ extra, stem := st, suffix := sf } = true :=
  isPrefixOf_append_self base extra

theorem isUnder_self_dir (base : List String) (st sf : String) :
    isUnder base { dir := base, stem := st, suffix := sf } = true := by
  have h := isPrefixOf_append_self base []
  rw [List.append_nil] at h
  exact h

theorem isUnder_of_unsupported (ctx : OpCtx) (q : FP)
    (h : isUnder (unsupportedDir ctx) q = true) :
    isUnder ctx.outputBase q = true :=
  isPrefixOf_append_weaken ctx.outputBase ["unsupported"] q.dir h

theorem isUnder_dir_eq (base : List String) (p q : FP) (h : p.dir = q.dir) :
    isUnder base p = isUnder base q := by
  unfold isUnder
  rw [h]

/-! ## Operation shape lemmas -/

theorem copyFile_ok_eq (ctx : OpCtx) (fs : FS) (src dst : FP) (c : Content)
    (h1 : isUnder ctx.inputBase src = true)
    (h2 : isUnder ctx.outputBase dst = true) (hg : fsGet fs src = some c) :
    copyFile ctx fs src dst true = (none, fsSet fs dst c) := by
  unfold copyFile
  rw [if_neg (by rw [h1]; exact not_not_intro rfl),
    if_neg (by rw [h2]; exact not_not_intro rfl), hg]

theorem copyFile_osError_eq (ctx : OpCtx) (fs : FS) (src dst : FP)
    (h1 : isUnder ctx.inputBase src = true)
    (h2 : isUnder ctx.outputBase dst = true) :
    copyFile ctx fs src dst false = (some .osError, fs) := by
  unfold copyFile
  rw [if_neg (by rw [h1]; exact not_not_intro rfl),
    if_neg (by rw [h2]; exact not_not_intro rfl)]
  cases hg : fsGet fs src <;> rfl

theorem copyFile_srcGuard_eq (ctx : OpCtx) (fs : FS) (src dst : FP) (ok : Bool)
    (h1 : isUnder ctx.inputBase src = false) :
    copyFile ctx fs src dst ok = (some .valueError, fs) := by
  unfold copyFile
  rw [if_pos (by rw [h1]; exact Bool.false_ne_true)]

theorem moveFile_shape (ctx : OpCtx) (fs : FS) (src dst : FP) (ok : Bool) :
    moveFile ctx fs src dst ok = (some .valueError, fs) ∨
    moveFile ctx fs src dst ok = (some .osError, fs) ∨
    (ctx.removeInputFiles = true ∧ isUnder ctx.inputBase src = true ∧
      isUnder ctx.outputBase dst = true ∧ ok = true ∧
      ∃ c, fsGet fs src = some c ∧
        moveFile ctx fs src dst ok = (none, fsSet (fsDel fs src) dst c)) := by
  unfold moveFile
  by_cases hr : ctx.removeInputFiles = true
  · rw [if_neg (by rw [hr]; exact not_not_intro rfl)]
    by_cases hs : isUnder ctx.inputBase src = true
    · rw [if_neg (by rw [hs]; exact not_not_intro rfl)]
      by_cases hd : isUnder ctx.outputBase dst = true
      · rw [if_neg (by rw [hd]; exact not_not_intro rfl)]
        cases hg : fsGet fs src with
        | none => cases ok <;> simp
        | some c =>
          cases ok with
          | false => simp
          | true => exact Or.inr (Or.inr ⟨hr, hs, hd, rfl, c, rfl, rfl⟩)
      · rw [if_pos hd]; exact Or.inl rfl
    · rw [if_pos hs]; exact Or.inl rfl
  · rw [if_pos (by simpa using hr)]; exact Or.inl rfl

theorem removeFile_shape (ctx : OpCtx) (fs : FS) (p : FP) (ok : Bool) :
    removeFile ctx fs p ok = (some .valueError, fs) ∨
    removeFile ctx fs p ok = (none, fsDel fs p) ∨
    removeFile ctx fs p ok = (none, fs) := by
  unfold removeFile
  by_cases hr : ctx.removeInputFiles = true
  · rw [if_neg (by rw [hr]; exact not_not_intro rfl)]
    by_cases hs : isUnder ctx.inputBase p = true
    · rw [if_neg (by rw [hs]; exact not_not_intro rfl)]
      cases hg : fsGet fs p with
      | none => cases ok <;> simp
      | some c => cases ok with
        | false => simp
        | true => exact Or.inr (Or.inl rfl)
    · rw [if_pos hs]; exact Or.inl rfl
  · rw [if_pos (by simpa using hr)]; exact Or.inl rfl

theorem removeFile_noerr_eq (ctx : OpCtx) (fs : FS) (p : FP) (ok : Bool)
    (hr : ctx.removeInputFiles = true) (hs : isUnder ctx.inputBase p = true) :
    removeFile ctx fs p ok = (none, fsDel fs p) ∨
    removeFile ctx fs p ok = (none, fs) := by
  rcases removeFile_shape ctx fs p ok with h | h | h
  · exfalso
    unfold removeFile at h
    rw [if_neg (by rw [hr]; exact not_not_intro rfl),
      if_neg (by rw [hs]; exact not_not_intro rfl)] at h
    cases hg : fsGet fs p with
    | none => rw [hg] at h; cases ok <;> simp at h
    | some c => rw [hg] at h; cases ok <;> simp at h
  · exact Or.inl h
  · exact Or.inr h

/-- Soundness of the duplicate lookup: a reported duplicate is a member
of the dictionary entry of the candidate's hash. -/
theorem findDuplicateByHash_sound {α : Type} [DecidableEq α]
    {dict : List (α × List FP)} {statSize : FP → Option Nat}
    {hashOf : FP → Option α} {p d : FP}
    (hfd : findDuplicateByHash dict statSize hashOf p = some d) :
    ∃ h paths, hashOf p = some h ∧ dictLookup dict h = some paths ∧
      d ∈ paths := by
  unfold findDuplicateByHash at hfd
  cases hsp : statSize p with
  | none => simp [hsp] at hfd
  | some sz =>
    simp only [hsp] at hfd
    cases hh : hashOf p with
    | none => simp [hh] at hfd
    | some h =>
      simp only [hh] at hfd
      cases hd : dictLookup dict h with
      | none => simp [hd] at hfd
      | some paths =>
        simp only [hd] at hfd
        cases paths with
        | nil => simp at hfd
        | cons first rest =>
          simp only [List.head?] at hfd
          cases hsf : statSize first with
          | none => simp [hsf] at hfd
          | some fsz =>
            simp only [hsf] at hfd
            by_cases he : fsz = sz
            · rw [if_pos he] at hfd
              have : first = d := Option.some_inj.mp hfd
              exact ⟨h, first :: rest, rfl, hd, this ▸ List.mem_cons_self first rest⟩
            · rw [if_neg he] at hfd; simp at hfd

/-! ## Dictionary accuracy helpers -/

theorem dictAccurate_nil (out : List String) (fs : FS) :
    DictAccurate out fs [] := by
  intro h ps hl
  simp [dictLookup] at hl

theorem dictAccurate_singleton (out : List String) (fs : FS) (k : Content)
    (qs : List FP)
    (h : ∀ q ∈ qs, isUnder out q = true ∧ fsGet fs q = some k) :
    DictAccurate out fs [(k, qs)] := by
  intro h2 ps hl q hq
  unfold dictLookup at hl
  by_cases hk : k = h2
  · rw [if_pos hk] at hl
    obtain rfl : qs = ps := Option.some_inj.mp hl
    obtain ⟨hu, hg⟩ := h q hq
    exact ⟨hu, by rw [← hk]; exact hg⟩
  · rw [if_neg hk] at hl
    exact absurd hl (by simp [dictLookup])

theorem removeFile_ok_eq (ctx : OpCtx) (fs : FS) (p : FP) (c : Content)
    (hr : ctx.removeInputFiles = true) (hs : isUnder ctx.inputBase p = true)
    (hg : fsGet fs p = some c) :
    removeFile ctx fs p true = (none, fsDel fs p) := by
  unfold removeFile
  rw [if_neg (by rw [hr]; exact not_not_intro rfl),
    if_neg (by rw [hs]; exact not_not_intro rfl), hg]

/-! ## No-data-loss lemmas for the pipeline (C1, C2, C7) -/

/-- The fresh-move branch of move_to_unsupported never loses the file:
either an exception leaves it at its original path, or it lands on a
fresh path inside the unsupported area. -/
theorem moveToUnsupportedFresh_no_loss (ctx : OpCtx) (fs : FS) (p : FP)
    (fuel : Nat) (orc : Oracle) (c : Content) (hp : fsGet fs p = some c) :
    ∀ fs', (moveToUnsupportedFresh ctx fs p fuel orc = .ret fs' ∨
        ∃ e, moveToUnsupportedFresh ctx fs p fuel orc = .raised e fs') →
      fsGet fs' p = some c ∨
      ∃ q, isUnder (unsupportedDir ctx) q = true ∧ fsGet fs' q = some c := by
  intro fs' hres
  unfold moveToUnsupportedFresh at hres
  cases hu : ensureUniquePath (fsExists fs)
      { dir := unsupportedDir ctx, stem := p.stem, suffix := p.suffix } fuel with
  | none =>
    simp only [hu] at hres
    rcases hres with hh | ⟨e, hh⟩ <;> simp at hh
  | some u =>
    simp only [hu] at hres
    have hufree : fsExists fs u = false := ensureUniquePath_some_free hu
    have hudir : u.dir = unsupportedDir ctx := (ensureUniquePath_some_dir hu).1
    have huout : isUnder (unsupportedDir ctx) u = true := by
      unfold isUnder
      rw [hudir]
      have h2 := isPrefixOf_append_self (unsupportedDir ctx) []
      rwa [List.append_nil] at h2
    rcases moveFile_shape ctx fs p u orc.unsupMoveOk with hm | hm |
        ⟨_, _, _, _, c2, hg2, hm⟩
    · simp only [hm] at hres
      rcases hres with hh | ⟨e, hh⟩
      · simp at hh
      · simp only [Res.raised.injEq] at hh
        rw [← hh.2]
        exact Or.inl hp
    · simp only [hm] at hres
      rcases hres with hh | ⟨e, hh⟩
      · simp at hh
      · simp only [Res.raised.injEq] at hh
        rw [← hh.2]
        exact Or.inl hp
    · have hc2 : c2 = c := by
        rw [hp] at hg2
        exact (Option.some_inj.mp hg2).symm
      simp only [hm] at hres
      rcases hres with hh | ⟨e, hh⟩
      · simp only [Res.ret.injEq] at hh
        rw [← hh]
        refine Or.inr ⟨u, huout, ?_⟩
        rw [fsGet_set_self, hc2]
      · simp at hh

/-- move_to_unsupported never loses the file: the original survives, or
a byte-identical copy sits inside the unsupported holding area (either
the pre-existing duplicate the dictionary certified, or the freshly
moved copy). -/
theorem moveToUnsupported_no_loss (ctx : OpCtx) (fs : FS) (dict : HashDict)
    (sizeFn : Content → Nat) (p : FP) (fuel : Nat) (orc : Oracle) (c : Content)
    (hdict : DictAccurate ctx.outputBase fs dict)
    (hp : fsGet fs p = some c)
    (hout : isUnder ctx.outputBase p = false) :
    ∀ fs', (moveToUnsupported ctx fs dict sizeFn p fuel orc = .ret fs' ∨
        ∃ e, moveToUnsupported ctx fs dict sizeFn p fuel orc = .raised e fs') →
      fsGet fs' p = some c ∨
      ∃ q, isUnder (unsupportedDir ctx) q = true ∧ fsGet fs' q = some c := by
  intro fs' hres
  unfold moveToUnsupported at hres
  cases hdup : findDuplicateByHash dict (statSizeOf fs sizeFn) (hashOfFile fs) p with
  | none =>
    simp only [hdup] at hres
    exact moveToUnsupportedFresh_no_loss ctx fs p fuel orc c hp fs' hres
  | some d =>
    simp only [hdup] at hres
    obtain ⟨h, paths, hhash, hlook, hmem⟩ := findDuplicateByHash_sound hdup
    have hc : h = c := by
      unfold hashOfFile at hhash
      rw [hp] at hhash
      exact (Option.some_inj.mp hhash).symm
    obtain ⟨hdout, hdc⟩ := hdict h paths hlook d hmem
    rw [hc] at hdc
    have hdp : d ≠ p := by
      intro e
      rw [e, hout] at hdout
      exact Bool.false_ne_true hdout
    by_cases hud : isUnder (unsupportedDir ctx) d = true
    · rw [if_pos hud] at hres
      rcases removeFile_shape ctx fs p orc.unsupRemoveOk with hrm | hrm | hrm <;>
        simp only [hrm] at hres
      · rcases hres with hh | ⟨e, hh⟩
        · simp at hh
        · simp only [Res.raised.injEq] at hh
          rw [← hh.2]
          exact Or.inl hp
      · rcases hres with hh | ⟨e, hh⟩
        · simp only [Res.ret.injEq] at hh
          rw [← hh]
          refine Or.inr ⟨d, hud, ?_⟩
          rw [fsGet_del_ne fs p d hdp]
          exact hdc
        · simp at hh
      · rcases hres with hh | ⟨e, hh⟩
        · simp only [Res.ret.injEq] at hh
          rw [← hh]
          exact Or.inl hp
        · simp at hh
    · rw [if_neg hud] at hres
      exact moveToUnsupportedFresh_no_loss ctx fs p fuel orc c hp fs' hres

/-- The copy-then-remove tail: either a ValueError leaves the
filesystem untouched, or the method returns normally with the file
still at its original path or placed at the fresh destination under the
output root. -/
theorem placeAndRemove_spec (ctx : OpCtx) (fs : FS) (p np : FP) (orc : Oracle)
    (c : Content) (hp : fsGet fs p = some c)
    (hnpout : isUnder ctx.outputBase np = true)
    (hnpfree : fsExists fs np = false) :
    placeAndRemove ctx fs p np orc = some (some .valueError, fs) ∨
    ∃ fs1, placeAndRemove ctx fs p np orc = some (none, fs1) ∧
      (fsGet fs1 p = some c ∨
        ∃ q, isUnder ctx.outputBase q = true ∧ fsGet fs1 q = some c) := by
  have hnp : fsGet fs np = none := by
    cases hgg : fsGet fs np with
    | none => rfl
    | some v =>
      exfalso
      unfold fsExists at hnpfree
      rw [hgg] at hnpfree
      simp at hnpfree
  have hnpp : np ≠ p := by
    intro e
    rw [e, hp] at hnp
    exact Option.noConfusion hnp
  by_cases hs : isUnder ctx.inputBase p = true
  · cases hcp : orc.copyOk with
    | false =>
      have hPR : placeAndRemove ctx fs p np orc = some (none, fs) := by
        unfold placeAndRemove
        rw [hcp, copyFile_osError_eq ctx fs p np hs hnpout]
      exact Or.inr ⟨fs, hPR, Or.inl hp⟩
    | true =>
      have hcf : copyFile ctx fs p np orc.copyOk = (none, fsSet fs np c) := by
        rw [hcp]
        exact copyFile_ok_eq ctx fs p np c hs hnpout hp
      by_cases hr : ctx.removeInputFiles = true
      · have hg1 : fsGet (fsSet fs np c) p = some c := by
          rw [fsGet_set_ne fs np c p (fun e => hnpp e.symm)]
          exact hp
        rcases removeFile_noerr_eq ctx (fsSet fs np c) p orc.removeOk hr hs with
          hrm | hrm
        · have hPR : placeAndRemove ctx fs p np orc =
              some (none, fsDel (fsSet fs np c) p) := by
            unfold placeAndRemove
            simp only [hcf, hr, eq_self_iff_true, if_true, hrm]
          refine Or.inr ⟨fsDel (fsSet fs np c) p, hPR, Or.inr ⟨np, hnpout, ?_⟩⟩
          rw [fsGet_del_ne (fsSet fs np c) p np hnpp, fsGet_set_self]
        · have hPR : placeAndRemove ctx fs p np orc =
              some (none, fsSet fs np c) := by
            unfold placeAndRemove
            simp only [hcf, hr, eq_self_iff_true, if_true, hrm]
          exact Or.inr ⟨fsSet fs np c, hPR, Or.inl hg1⟩
      · have hrf : ctx.removeInputFiles = false := by
          cases hb : ctx.removeInputFiles
          · rfl
          · exact absurd hb hr
        have hPR : placeAndRemove ctx fs p np orc = some (none, fsSet fs np c) := by
          unfold placeAndRemove
          simp only [hcf, hrf, Bool.false_eq_true, if_false]
        refine Or.inr ⟨fsSet fs np c, hPR, Or.inl ?_⟩
        rw [fsGet_set_ne fs np c p (fun e => hnpp e.symm)]
        exact hp
  · have hsf : isUnder ctx.inputBase p = false := by
      cases hb : isUnder ctx.inputBase p
      · rfl
      · exact absurd hb hs
    have hPR : placeAndRemove ctx fs p np orc = some (some .valueError, fs) := by
      unfold placeAndRemove
      rw [copyFile_srcGuard_eq ctx fs p np orc.copyOk hsf]
    exact Or.inl hPR

/-- move_to_destination hangs in the versioning loop, raises a
ValueError with the filesystem untouched, or returns normally with the
file surviving at its original path or at a path under the output
root. -/
theorem moveToDestination_spec (ctx : OpCtx) (fs : FS) (dict : HashDict)
    (sizeFn : Content → Nat) (p : FP) (filename category : String) (fuel : Nat)
    (orc : Oracle) (c : Content)
    (hdict : DictAccurate ctx.outputBase fs dict)
    (hp : fsGet fs p = some c) :
    moveToDestination ctx fs dict sizeFn p filename category fuel orc = none ∨
    moveToDestination ctx fs dict sizeFn p filename category fuel orc =
      some (some .valueError, fs) ∨
    ∃ fs1, moveToDestination ctx fs dict sizeFn p filename category fuel orc =
        some (none, fs1) ∧
      (fsGet fs1 p = some c ∨
        ∃ q, isUnder ctx.outputBase q = true ∧ fsGet fs1 q = some c) := by
  cases hdup : findDuplicateByHash dict (statSizeOf fs sizeFn) (hashOfFile fs) p with
  | some d =>
    obtain ⟨h, paths, hhash, hlook, hmem⟩ := findDuplicateByHash_sound hdup
    obtain ⟨hdout, _⟩ := hdict h paths hlook d hmem
    cases ht : ensureUniquePath (fsExists fs)
        { dir := d.dir, stem := d.stem ++ "_v2", suffix := d.suffix } fuel with
    | none =>
      refine Or.inl ?_
      simp only [moveToDestination, hdup, ht]
    | some np =>
      have hnpfree : fsExists fs np = false := ensureUniquePath_some_free ht
      have hnpdir : np.dir = d.dir := (ensureUniquePath_some_dir ht).1
      have hnpout : isUnder ctx.outputBase np = true := by
        rw [isUnder_dir_eq ctx.outputBase np d hnpdir]
        exact hdout
      have hmd : moveToDestination ctx fs dict sizeFn p filename category fuel orc =
          placeAndRemove ctx fs p np orc := by
        simp only [moveToDestination, hdup, ht]
      rw [hmd]
      rcases placeAndRemove_spec ctx fs p np orc c hp hnpout hnpfree with
        hh | ⟨fs1, hh1, hh2⟩
      · exact Or.inr (Or.inl hh)
      · exact Or.inr (Or.inr ⟨fs1, hh1, hh2⟩)
  | none =>
    cases hex : fsExists fs
        { dir := ctx.outputBase ++ [category], stem := filename,
          suffix := p.suffix } with
    | true =>
      cases ht : ensureUniquePath (fsExists fs)
          { dir := ctx.outputBase ++ [category], stem := filename,
            suffix := p.suffix } fuel with
      | none =>
        refine Or.inl ?_
        simp only [moveToDestination, hdup, hex, if_true, ht]
      | some np =>
        have hnpfree : fsExists fs np = false := ensureUniquePath_some_free ht
        have hnpdir : np.dir = ctx.outputBase ++ [category] :=
          (ensureUniquePath_some_dir ht).1
        have hnpout : isUnder ctx.outputBase np = true := by
          unfold isUnder
          rw [hnpdir]
          exact isPrefixOf_append_self ctx.outputBase [category]
        have hmd : moveToDestination ctx fs dict sizeFn p filename category fuel orc =
            placeAndRemove ctx fs p np orc := by
          simp only [moveToDestination, hdup, hex, if_true, ht]
        rw [hmd]
        rcases placeAndRemove_spec ctx fs p np orc c hp hnpout hnpfree with
          hh | ⟨fs1, hh1, hh2⟩
        · exact Or.inr (Or.inl hh)
        · exact Or.inr (Or.inr ⟨fs1, hh1, hh2⟩)
    | false =>
      have hnpout : isUnder ctx.outputBase
          { dir := ctx.outputBase ++ [category], stem := filename,
            suffix := p.suffix } = true :=
        isUnder_dir_append ctx.outputBase [category] filename p.suffix
      have hmd : moveToDestination ctx fs dict sizeFn p filename category fuel orc =
          placeAndRemove ctx fs p
            { dir := ctx.outputBase ++ [category], stem := filename,
              suffix := p.suffix } orc := by
        simp only [moveToDestination, hdup, hex, Bool.false_eq_true, if_false]
      rw [hmd]
      rcases placeAndRemove_spec ctx fs p
          { dir := ctx.outputBase ++ [category], stem := filename,
            suffix := p.suffix } orc c hp hnpout hex with
        hh | ⟨fs1, hh1, hh2⟩
      · exact Or.inr (Or.inl hh)
      · exact Or.inr (Or.inr ⟨fs1, hh1, hh2⟩)

/-! ## Theorems: pipeline data preservation (C1), dedupe behavior (C2),
unknown extensions (C7) -/

/-- C1 (amended): for every input file under the input root (and not
inside the output tree), every terminating run of
DocumentPipeline.process leaves the file's content in at least one
location: unchanged at its original path, or at a path (at least one,
not necessarily exactly one: a byte-identical pre-existing file makes
the pipeline place an extra versioned copy) under the output root,
which includes the unsupported holding area.  In particular no terminal
outcome deletes the original without a copy existing elsewhere. -/
theorem pipeline_no_data_loss (ctx : OpCtx) (fs : FS) (dict : HashDict)
    (sizeFn : Content → Nat) (p : FP) (fuel : Nat) (orc : Oracle) (c : Content)
    (hdict : DictAccurate ctx.outputBase fs dict)
    (hp : fsGet fs p = some c)
    (hout : isUnder ctx.outputBase p = false) :
    ∀ fs', (processPipeline ctx fs dict sizeFn p fuel orc = .ret fs' ∨
        ∃ e, processPipeline ctx fs dict sizeFn p fuel orc = .raised e fs') →
      fsGet fs' p = some c ∨
      ∃ q, isUnder ctx.outputBase q = true ∧ fsGet fs' q = some c := by
  have hunsup : ∀ fs',
      (moveToUnsupported ctx fs dict sizeFn p fuel orc = .ret fs' ∨
        ∃ e, moveToUnsupported ctx fs dict sizeFn p fuel orc = .raised e fs') →
      fsGet fs' p = some c ∨
      ∃ q, isUnder ctx.outputBase q = true ∧ fsGet fs' q = some c := by
    intro fs' hres
    rcases moveToUnsupported_no_loss ctx fs dict sizeFn p fuel orc c hdict hp
        hout fs' hres with hh | ⟨q, hq1, hq2⟩
    · exact Or.inl hh
    · exact Or.inr ⟨q, isUnder_of_unsupported ctx q hq1, hq2⟩
  intro fs' hres
  unfold processPipeline at hres
  cases hgh : getHandler p.suffix with
  | none =>
    simp only [hgh] at hres
    exact hunsup fs' hres
  | some hk =>
    simp only [hgh] at hres
    cases hho : orc.handlerOk with
    | false =>
      rw [if_pos (by rw [hho]; exact Bool.false_ne_true)] at hres
      exact hunsup fs' hres
    | true =>
      rw [if_neg (by rw [hho]; exact not_not_intro rfl)] at hres
      cases hapi : orc.apiResult with
      | none =>
        simp only [hapi] at hres
        exact hunsup fs' hres
      | some fc =>
        obtain ⟨f, cat⟩ := fc
        simp only [hapi] at hres
        by_cases hfc : f = "" ∨ cat = ""
        · rw [if_pos hfc] at hres
          exact hunsup fs' hres
        · rw [if_neg hfc] at hres
          rcases moveToDestination_spec ctx fs dict sizeFn p f cat fuel orc c
              hdict hp with hmd | hmd | ⟨fs1, hmd, hcon⟩
          · simp only [hmd] at hres
            rcases hres with hh | ⟨e, hh⟩ <;> simp at hh
          · simp only [hmd] at hres
            exact hunsup fs' hres
          · simp only [hmd] at hres
            rcases hres with hh | ⟨e, hh⟩
            · simp only [Res.ret.injEq] at hh
              rw [← hh]
              exact hcon
            · simp at hh

/-- Counterexample for C1 as stated: starting from an output tree that
already holds a byte-identical file, a successful run removes the
original and leaves the content at TWO distinct paths under the output
root (the pre-existing copy and the freshly created versioned copy),
neither of them inside the unsupported area — so the content is neither
unchanged at its original path, nor at exactly one path under the
output root, nor under the unsupported holding area. -/
theorem no_data_loss_exactly_one_counterexample :
    processPipeline
      { inputBase := ["in"], outputBase := ["out"], removeInputFiles := true }
      [({ dir := ["in"], stem := "x", suffix := ".pdf" }, 7),
       ({ dir := ["out", "work"], stem := "a", suffix := ".pdf" }, 7)]
      [(7, [{ dir := ["out", "work"], stem := "a", suffix := ".pdf" }])] id
      { dir := ["in"], stem := "x", suffix := ".pdf" } 3
      { handlerOk := true, apiResult := some ("a", "work"), copyOk := true,
        removeOk := true, unsupMoveOk := true, unsupRemoveOk := true } =
      Res.ret
        [({ dir := ["out", "work"], stem := "a_v2", suffix := ".pdf" }, 7),
         ({ dir := ["out", "work"], stem := "a", suffix := ".pdf" }, 7)] ∧
    fsGet
      [({ dir := ["out", "work"], stem := "a_v2", suffix := ".pdf" }, 7),
       ({ dir := ["out", "work"], stem := "a", suffix := ".pdf" }, 7)]
      { dir := ["in"], stem := "x", suffix := ".pdf" } = none ∧
    fsGet
      [({ dir := ["out", "work"], stem := "a_v2", suffix := ".pdf" }, 7),
       ({ dir := ["out", "work"], stem := "a", suffix := ".pdf" }, 7)]
      { dir := ["out", "work"], stem := "a", suffix := ".pdf" } = some 7 ∧
    fsGet
      [({ dir := ["out", "work"], stem := "a_v2", suffix := ".pdf" }, 7),
       ({ dir := ["out", "work"], stem := "a", suffix := ".pdf" }, 7)]
      { dir := ["out", "work"], stem := "a_v2", suffix := ".pdf" } = some 7 ∧
    ({ dir := ["out", "work"], stem := "a", suffix := ".pdf" } : FP) ≠
      { dir := ["out", "work"], stem := "a_v2", suffix := ".pdf" } ∧
    isUnder ["out"] { dir := ["out", "work"], stem := "a", suffix := ".pdf" } = true ∧
    isUnder ["out"] { dir := ["out", "work"], stem := "a_v2", suffix := ".pdf" } = true ∧
    isUnder ["out", "unsupported"]
      { dir := ["out", "work"], stem := "a", suffix := ".pdf" } = false ∧
    isUnder ["out", "unsupported"]
      { dir := ["out", "work"], stem := "a_v2", suffix := ".pdf" } = false := by
  decide

/-- Witness for C1: a file of unknown type is relocated with its
content preserved under the output root. -/
theorem pipeline_no_data_loss_witness :
    fsGet [({ dir := ["out", "unsupported"], stem := "x", suffix := ".xyz" }, 5)]
      { dir := ["in"], stem := "x", suffix := ".xyz" } = some 5 ∨
    ∃ q, isUnder ["out"] q = true ∧
      fsGet [({ dir := ["out", "unsupported"], stem := "x", suffix := ".xyz" }, 5)]
        q = some 5 :=
  pipeline_no_data_loss
    { inputBase := ["in"], outputBase := ["out"], removeInputFiles := true }
    [({ dir := ["in"], stem := "x", suffix := ".xyz" }, 5)] [] id
    { dir := ["in"], stem := "x", suffix := ".xyz" } 3
    { handlerOk := true, apiResult := some ("a", "work"), copyOk := true,
      removeOk := true, unsupMoveOk := true, unsupRemoveOk := true } 5
    (dictAccurate_nil ["out"]
      [({ dir := ["in"], stem := "x", suffix := ".xyz" }, 5)])
    (by decide) (by decide)
    [({ dir := ["out", "unsupported"], stem := "x", suffix := ".xyz" }, 5)]
    (Or.inl (by decide))

/-- C2 (amended): when find_duplicate_by_hash reports that a
byte-identical file d already exists under the output root, the
pipeline does NOT discard the new file: it copies the input to a fresh
versioned path np in the duplicate's directory (stem extended with _v2,
further versioned if taken) and then removes the input, so both the
pre-existing duplicate and the new versioned copy remain in the output
tree. -/
theorem dedupe_versioned_copy (ctx : OpCtx) (fs : FS) (dict : HashDict)
    (sizeFn : Content → Nat) (p d : FP) (fuel : Nat) (orc : Oracle)
    (c : Content) (hk : HandlerKind) (f cat : String)
    (hdict : DictAccurate ctx.outputBase fs dict)
    (hp : fsGet fs p = some c)
    (hout : isUnder ctx.outputBase p = false)
    (hin : isUnder ctx.inputBase p = true)
    (hr : ctx.removeInputFiles = true)
    (hgh : getHandler p.suffix = some hk)
    (hho : orc.handlerOk = true)
    (hapi : orc.apiResult = some (f, cat))
    (hfc : ¬ (f = "" ∨ cat = ""))
    (hcopy : orc.copyOk = true)
    (hrem : orc.removeOk = true)
    (hdup : findDuplicateByHash dict (statSizeOf fs sizeFn) (hashOfFile fs) p =
      some d)
    (hfuel : ∃ u, ensureUniquePath (fsExists fs)
      { dir := d.dir, stem := d.stem ++ "_v2", suffix := d.suffix } fuel =
        some u) :
    ∃ np fs1, processPipeline ctx fs dict sizeFn p fuel orc = .ret fs1 ∧
      np.dir = d.dir ∧ np ≠ d ∧ isUnder ctx.outputBase np = true ∧
      fsGet fs1 np = some c ∧ fsGet fs1 d = some c ∧ fsGet fs1 p = none := by
  obtain ⟨np, hnp⟩ := hfuel
  have hnpfree : fsExists fs np = false := ensureUniquePath_some_free hnp
  have hnpdir : np.dir = d.dir := (ensureUniquePath_some_dir hnp).1
  obtain ⟨h, paths, hhash, hlook, hmem⟩ := findDuplicateByHash_sound hdup
  have hc : h = c := by
    unfold hashOfFile at hhash
    rw [hp] at hhash
    exact (Option.some_inj.mp hhash).symm
  obtain ⟨hdout, hdc⟩ := hdict h paths hlook d hmem
  rw [hc] at hdc
  have hnpout : isUnder ctx.outputBase np = true := by
    rw [isUnder_dir_eq ctx.outputBase np d hnpdir]
    exact hdout
  have hnpnone : fsGet fs np = none := by
    cases hgg : fsGet fs np with
    | none => rfl
    | some v =>
      exfalso
      unfold fsExists at hnpfree
      rw [hgg] at hnpfree
      simp at hnpfree
  have hnpp : np ≠ p := by
    intro e
    rw [e, hp] at hnpnone
    exact Option.noConfusion hnpnone
  have hnpd : np ≠ d := by
    intro e
    rw [e, hdc] at hnpnone
    exact Option.noConfusion hnpnone
  have hdp : d ≠ p := by
    intro e
    rw [e, hout] at hdout
    exact Bool.false_ne_true hdout
  have hcf : copyFile ctx fs p np orc.copyOk = (none, fsSet fs np c) := by
    rw [hcopy]
    exact copyFile_ok_eq ctx fs p np c hin hnpout hp
  have hg1 : fsGet (fsSet fs np c) p = some c := by
    rw [fsGet_set_ne fs np c p (fun e => hnpp e.symm)]
    exact hp
  have hrm : removeFile ctx (fsSet fs np c) p orc.removeOk =
      (none, fsDel (fsSet fs np c) p) := by
    rw [hrem]
    exact removeFile_ok_eq ctx (fsSet fs np c) p c hr hin hg1
  have hpr : placeAndRemove ctx fs p np orc =
      some (none, fsDel (fsSet fs np c) p) := by
    unfold placeAndRemove
    simp only [hcf, hr, eq_self_iff_true, if_true, hrm]
  have hmd : moveToDestination ctx fs dict sizeFn p f cat fuel orc =
      some (none, fsDel (fsSet fs np c) p) := by
    simp only [moveToDestination, hdup, hnp, hpr]
  have hpp : processPipeline ctx fs dict sizeFn p fuel orc =
      .ret (fsDel (fsSet fs np c) p) := by
    unfold processPipeline
    simp only [hgh]
    rw [if_neg (by rw [hho]; exact not_not_intro rfl)]
    simp only [hapi]
    rw [if_neg hfc]
    simp only [hmd]
  refine ⟨np, fsDel (fsSet fs np c) p, hpp, hnpdir, hnpd, hnpout, ?_, ?_, ?_⟩
  · rw [fsGet_del_ne (fsSet fs np c) p np hnpp, fsGet_set_self]
  · rw [fsGet_del_ne (fsSet fs np c) p d hdp,
      fsGet_set_ne fs np c d (fun e => hnpd e.symm)]
    exact hdc
  · exact fsGet_del_self (fsSet fs np c) p

/-- Counterexample for C2 as stated: with a byte-identical file already
under the output root, the run removes the input but also WRITES a new
versioned copy into the output tree — the new file is not discarded and
two byte-identical copies survive. -/
theorem dedupe_discard_counterexample :
    processPipeline
      { inputBase := ["in"], outputBase := ["out"], removeInputFiles := true }
      [({ dir := ["in"], stem := "doc", suffix := ".pdf" }, 9),
       ({ dir := ["out", "tax"], stem := "b", suffix := ".pdf" }, 9)]
      [(9, [{ dir := ["out", "tax"], stem := "b", suffix := ".pdf" }])] id
      { dir := ["in"], stem := "doc", suffix := ".pdf" } 3
      { handlerOk := true, apiResult := some ("b", "tax"), copyOk := true,
        removeOk := true, unsupMoveOk := true, unsupRemoveOk := true } =
      Res.ret
        [({ dir := ["out", "tax"], stem := "b_v2", suffix := ".pdf" }, 9),
         ({ dir := ["out", "tax"], stem := "b", suffix := ".pdf" }, 9)] ∧
    fsGet
      [({ dir := ["in"], stem := "doc", suffix := ".pdf" }, 9),
       ({ dir := ["out", "tax"], stem := "b", suffix := ".pdf" }, 9)]
      { dir := ["out", "tax"], stem := "b_v2", suffix := ".pdf" } = none ∧
    fsGet
      [({ dir := ["out", "tax"], stem := "b_v2", suffix := ".pdf" }, 9),
       ({ dir := ["out", "tax"], stem := "b", suffix := ".pdf" }, 9)]
      { dir := ["out", "tax"], stem := "b_v2", suffix := ".pdf" } = some 9 ∧
    fsGet
      [({ dir := ["out", "tax"], stem := "b_v2", suffix := ".pdf" }, 9),
       ({ dir := ["out", "tax"], stem := "b", suffix := ".pdf" }, 9)]
      { dir := ["out", "tax"], stem := "b", suffix := ".pdf" } = some 9 := by
  decide

/-- Witness for C2: the versioned-copy behavior proved by
dedupe_versioned_copy instantiated on a concrete duplicate scenario. -/
theorem dedupe_versioned_copy_witness :
    ∃ np fs1,
      processPipeline
        { inputBase := ["in"], outputBase := ["out"], removeInputFiles := true }
        [({ dir := ["in"], stem := "x", suffix := ".pdf" }, 7),
         ({ dir := ["out", "work"], stem := "a", suffix := ".pdf" }, 7)]
        [(7, [{ dir := ["out", "work"], stem := "a", suffix := ".pdf" }])] id
        { dir := ["in"], stem := "x", suffix := ".pdf" } 3
        { handlerOk := true, apiResult := some ("a", "work"), copyOk := true,
          removeOk := true, unsupMoveOk := true, unsupRemoveOk := true } =
        .ret fs1 ∧
      np.dir = ({ dir := ["out", "work"], stem := "a", suffix := ".pdf" } : FP).dir ∧
      np ≠ { dir := ["out", "work"], stem := "a", suffix := ".pdf" } ∧
      isUnder ["out"] np = true ∧
      fsGet fs1 np = some 7 ∧
      fsGet fs1 { dir := ["out", "work"], stem := "a", suffix := ".pdf" } = some 7 ∧
      fsGet fs1 { dir := ["in"], stem := "x", suffix := ".pdf" } = none :=
  dedupe_versioned_copy
    { inputBase := ["in"], outputBase := ["out"], removeInputFiles := true }
    [({ dir := ["in"], stem := "x", suffix := ".pdf" }, 7),
     ({ dir := ["out", "work"], stem := "a", suffix := ".pdf" }, 7)]
    [(7, [{ dir := ["out", "work"], stem := "a", suffix := ".pdf" }])] id
    { dir := ["in"], stem := "x", suffix := ".pdf" }
    { dir := ["out", "work"], stem := "a", suffix := ".pdf" } 3
    { handlerOk := true, apiResult := some ("a", "work"), copyOk := true,
      removeOk := true, unsupMoveOk := true, unsupRemoveOk := true } 7
    HandlerKind.pdf "a" "work"
    (dictAccurate_singleton ["out"]
      [({ dir := ["in"], stem := "x", suffix := ".pdf" }, 7),
       ({ dir := ["out", "work"], stem := "a", suffix := ".pdf" }, 7)] 7
      [{ dir := ["out", "work"], stem := "a", suffix := ".pdf" }] (by decide))
    (by decide) (by decide) (by decide) (by decide) (by decide) (by decide)
    (by decide)
    (by intro hor; rcases hor with h | h <;> exact absurd h (by decide))
    (by decide) (by decide) (by decide)
    ⟨{ dir := ["out", "work"], stem := "a_v2", suffix := ".pdf" }, by decide⟩

/-- C7 (amended): a file whose extension has no registered handler is
not left untouched: extract_content raises the unsupported-file-type
ValueError, process catches it and relocates the file into the
unsupported holding area (or discards it in favor of a byte-identical
copy already there); the content always survives, at the original path
only when the relocation itself fails. -/
theorem unsupported_extension_relocated (ctx : OpCtx) (fs : FS)
    (dict : HashDict) (sizeFn : Content → Nat) (p : FP) (fuel : Nat)
    (orc : Oracle) (c : Content)
    (hgh : getHandler p.suffix = none)
    (hdict : DictAccurate ctx.outputBase fs dict)
    (hp : fsGet fs p = some c)
    (hout : isUnder ctx.outputBase p = false) :
    processPipeline ctx fs dict sizeFn p fuel orc =
      moveToUnsupported ctx fs dict sizeFn p fuel orc ∧
    ∀ fs', (processPipeline ctx fs dict sizeFn p fuel orc = .ret fs' ∨
        ∃ e, processPipeline ctx fs dict sizeFn p fuel orc = .raised e fs') →
      fsGet fs' p = some c ∨
      ∃ q, isUnder (unsupportedDir ctx) q = true ∧ fsGet fs' q = some c := by
  have heq : processPipeline ctx fs dict sizeFn p fuel orc =
      moveToUnsupported ctx fs dict sizeFn p fuel orc := by
    unfold processPipeline
    rw [hgh]
  refine ⟨heq, ?_⟩
  intro fs' hres
  rw [heq] at hres
  exact moveToUnsupported_no_loss ctx fs dict sizeFn p fuel orc c hdict hp hout
    fs' hres

/-- Counterexample for C7 as stated: an extension with no handler is
moved to the unsupported area, not left untouched; afterwards the
original path is empty and the content sits under unsupported. -/
theorem untouched_counterexample :
    getHandler ".xyz" = none ∧
    processPipeline
      { inputBase := ["in"], outputBase := ["out"], removeInputFiles := true }
      [({ dir := ["in"], stem := "x", suffix := ".xyz" }, 5)] [] id
      { dir := ["in"], stem := "x", suffix := ".xyz" } 3
      { handlerOk := true, apiResult := some ("a", "work"), copyOk := true,
        removeOk := true, unsupMoveOk := true, unsupRemoveOk := true } =
      Res.ret
        [({ dir := ["out", "unsupported"], stem := "x", suffix := ".xyz" }, 5)] ∧
    fsGet [({ dir := ["out", "unsupported"], stem := "x", suffix := ".xyz" }, 5)]
      { dir := ["in"], stem := "x", suffix := ".xyz" } = none ∧
    fsGet [({ dir := ["out", "unsupported"], stem := "x", suffix := ".xyz" }, 5)]
      { dir := ["out", "unsupported"], stem := "x", suffix := ".xyz" } = some 5 := by
  decide

/-- Witness for C7: the relocation theorem instantiated on the concrete
unknown-extension run. -/
theorem unsupported_extension_relocated_witness :
    fsGet [({ dir := ["out", "unsupported"], stem := "x", suffix := ".xyz" }, 5)]
      { dir := ["in"], stem := "x", suffix := ".xyz" } = some 5 ∨
    ∃ q, isUnder (unsupportedDir
        { inputBase := ["in"], outputBase := ["out"], removeInputFiles := true })
        q = true ∧
      fsGet [({ dir := ["out", "unsupported"], stem := "x", suffix := ".xyz" }, 5)]
        q = some 5 :=
  (unsupported_extension_relocated
    { inputBase := ["in"], outputBase := ["out"], removeInputFiles := true }
    [({ dir := ["in"], stem := "x", suffix := ".xyz" }, 5)] [] id
    { dir := ["in"], stem := "x", suffix := ".xyz" } 3
    { handlerOk := true, apiResult := some ("a", "work"), copyOk := true,
      removeOk := true, unsupMoveOk := true, unsupRemoveOk := true } 5
    (by decide)
    (dictAccurate_nil ["out"]
      [({ dir := ["in"], stem := "x", suffix := ".xyz" }, 5)])
    (by decide) (by decide)).2
    [({ dir := ["out", "unsupported"], stem := "x", suffix := ".xyz" }, 5)]
    (Or.inl (by decide))

/-! ## Theorems: rate limiter (C9) -/

/-- On a sorted deque the expiry-pruning loop (pop from the front while
at least one window old) removes exactly the expired timestamps. -/
theorem rlPrune_eq_filter (w now : ℚ) (l : List ℚ)
    (hl : l.Pairwise (fun a b => a ≤ b)) :
    rlPrune w now l = l.filter (fun t => now - w < t) := by
  induction l with
  | nil => rfl
  | cons a t ih =>
    rw [List.pairwise_cons] at hl
    obtain ⟨ha, ht⟩ := hl
    unfold rlPrune at ih ⊢
    by_cases hc : w ≤ now - a
    · rw [List.dropWhile_cons, if_pos (by simp only [decide_eq_true_eq]; exact hc),
        List.filter_cons,
        if_neg (by simp only [decide_eq_true_eq]; intro hcc; linarith)]
      exact ih ht
    · have hlt : now - w < a := by linarith [lt_of_not_le hc]
      rw [List.dropWhile_cons,
        if_neg (by simp only [decide_eq_true_eq]; exact hc),
        List.filter_cons, if_pos (by simp only [decide_eq_true_eq]; exact hlt)]
      have hrest : t.filter (fun b => decide (now - w < b)) = t :=
        List.filter_eq_self.mpr (fun b hb => by
          simp only [decide_eq_true_eq]
          have := ha b hb
          linarith)
      rw [hrest]

theorem filter_filter_of_imp (l : List ℚ) (p q : ℚ → Bool)
    (h : ∀ a, p a = true → q a = true) :
    (l.filter q).filter p = l.filter p := by
  induction l with
  | nil => rfl
  | cons a t ih =>
    by_cases hp : p a = true
    · rw [List.filter_cons, if_pos (h a hp), List.filter_cons, if_pos hp,
        List.filter_cons, if_pos hp, ih]
    · by_cases hq : q a = true
      · rw [List.filter_cons, if_pos hq, List.filter_cons, if_neg hp,
        List.filter_cons, if_neg hp, ih]
      · rw [List.filter_cons, if_neg hq, List.filter_cons, if_neg hp, ih]

/-- One call of wait_if_needed preserves the deque invariant, returns
no earlier than it starts, appends exactly one admission, and keeps
every window at or below max_calls. -/
theorem waitIfNeeded_step (maxCalls : Nat) (w : ℚ) (hmax : 1 ≤ maxCalls)
    (hw : 0 < w) (adm calls : List ℚ) (prev now : ℚ)
    (hinv : RLInv maxCalls w adm prev calls) (hnow : prev ≤ now) :
    now ≤ (waitIfNeeded maxCalls w calls now).1 ∧
    RLInv maxCalls w (adm ++ [(waitIfNeeded maxCalls w calls now).1])
      (waitIfNeeded maxCalls w calls now).1
      (waitIfNeeded maxCalls w calls now).2 ∧
    (RLWin maxCalls w adm →
      RLWin maxCalls w (adm ++ [(waitIfNeeded maxCalls w calls now).1])) := by
  obtain ⟨hsort, hle, hlen, hsub, hadm⟩ := hinv
  have hc1sub : List.Sublist (rlPrune w now calls) calls :=
    List.dropWhile_sublist _
  have hc1eq : rlPrune w now calls = calls.filter (fun t => now - w < t) :=
    rlPrune_eq_filter w now calls hsort
  have hc1sort : (rlPrune w now calls).Pairwise (fun a b => a ≤ b) :=
    hsort.sublist hc1sub
  have hc1le : ∀ t ∈ rlPrune w now calls, t ≤ prev :=
    fun t ht => hle t (hc1sub.subset ht)
  have hc1mem : ∀ t ∈ rlPrune w now calls, now - w < t := by
    intro t ht
    rw [hc1eq] at ht
    have := (List.mem_filter.mp ht).2
    simpa using this
  have hc1len : (rlPrune w now calls).length ≤ maxCalls :=
    le_trans hc1sub.length_le hlen
  have hsub1 : List.Subperm (adm.filter (fun t => now - w < t))
      (rlPrune w now calls) := by
    have himp : ∀ a : ℚ, decide (now - w < a) = true →
        decide (prev - w < a) = true := by
      intro a ha
      simp only [decide_eq_true_eq] at ha ⊢
      linarith
    have e1 : (adm.filter (fun t => prev - w < t)).filter
        (fun t => now - w < t) = adm.filter (fun t => now - w < t) :=
      filter_filter_of_imp adm _ _ himp
    rw [← e1, hc1eq]
    exact hsub.filter _
  by_cases hfull : maxCalls ≤ (rlPrune w now calls).length
  · -- the deque is full: wait until the oldest entry expires
    cases hc1 : rlPrune w now calls with
    | nil => rw [hc1] at hfull; simp at hfull; omega
    | cons t0 rest =>
      rw [hc1] at hfull hc1sort hc1le hc1mem hc1len hsub1
      have ht0 : now - w < t0 := hc1mem t0 (List.mem_cons_self t0 rest)
      have hwt : 0 < t0 + w - now := by linarith
      have hrsort : rest.Pairwise (fun a b => a ≤ b) :=
        (List.pairwise_cons.mp hc1sort).2
      have ht0rest : ∀ b ∈ rest, t0 ≤ b := (List.pairwise_cons.mp hc1sort).1
      have hn2 : now + (t0 + w - now) = t0 + w := by ring
      have hc2head : rlPrune w (now + (t0 + w - now)) (t0 :: rest) =
          rlPrune w (now + (t0 + w - now)) rest := by
        unfold rlPrune
        rw [List.dropWhile_cons, if_pos]
        simp only [decide_eq_true_eq]
        linarith
      have hc2eq : rlPrune w (now + (t0 + w - now)) rest =
          rest.filter (fun t => now + (t0 + w - now) - w < t) :=
        rlPrune_eq_filter _ _ rest hrsort
      have hW : waitIfNeeded maxCalls w calls now =
          (now + (t0 + w - now),
            rlPrune w (now + (t0 + w - now)) (t0 :: rest) ++
              [now + (t0 + w - now)]) := by
        simp only [waitIfNeeded]
        rw [hc1, if_pos hfull]
        simp only [List.head?]
        rw [if_pos hwt]
      rw [hW]
      dsimp only
      have hnow2 : now ≤ now + (t0 + w - now) := by linarith
      have hc2sub : List.Sublist (rlPrune w (now + (t0 + w - now)) rest) rest :=
        List.dropWhile_sublist _
      have hc2len : (rlPrune w (now + (t0 + w - now)) rest).length ≤
          maxCalls - 1 := by
        have h1 := hc2sub.length_le
        have h2 : (t0 :: rest).length ≤ maxCalls := hc1len
        simp only [List.length_cons] at h2
        omega
      have hsub2 : List.Subperm
          (adm.filter (fun t => now + (t0 + w - now) - w < t))
          (rlPrune w (now + (t0 + w - now)) rest) := by
        have himp : ∀ a : ℚ, decide (now + (t0 + w - now) - w < a) = true →
            decide (now - w < a) = true := by
          intro a ha
          simp only [decide_eq_true_eq] at ha ⊢
          linarith
        have e1 : (adm.filter (fun t => now - w < t)).filter
            (fun t => now + (t0 + w - now) - w < t) =
            adm.filter (fun t => now + (t0 + w - now) - w < t) :=
          filter_filter_of_imp adm _ _ himp
        have h2 : List.Subperm
            ((adm.filter (fun t => now - w < t)).filter
              (fun t => now + (t0 + w - now) - w < t))
            ((t0 :: rest).filter (fun t => now + (t0 + w - now) - w < t)) :=
          hsub1.filter _
        rw [e1] at h2
        have h3 : (t0 :: rest).filter
            (fun t => now + (t0 + w - now) - w < t) =
            rest.filter (fun t => now + (t0 + w - now) - w < t) := by
          rw [List.filter_cons, if_neg]
          simp only [decide_eq_true_eq]
          intro hcc
          linarith
        rw [h3, ← hc2eq] at h2
        exact h2
      have hc2le : ∀ t ∈ rlPrune w (now + (t0 + w - now)) rest,
          t ≤ now + (t0 + w - now) := by
        intro t ht
        have := hc1le t (List.mem_cons_of_mem t0 (hc2sub.subset ht))
        linarith
      refine ⟨hnow2, ⟨?_, ?_, ?_, ?_, ?_⟩, ?_⟩
      · -- sorted
        rw [List.pairwise_append]
        refine ⟨hc2head ▸ ?_, List.pairwise_singleton _ _, ?_⟩
        · exact hrsort.sublist hc2sub
        · intro a ha b hb
          rw [List.mem_singleton] at hb
          subst hb
          rw [hc2head] at ha
          exact hc2le a ha
      · -- bounded by return time
        intro t ht
        rw [List.mem_append] at ht
        rcases ht with ht | ht
        · rw [hc2head] at ht
          exact hc2le t ht
        · rw [List.mem_singleton] at ht
          subst ht
          exact le_refl _
      · -- length
        rw [List.length_append, hc2head, List.length_singleton]
        have := hc2len
        omega
      · -- sub-multiset of recent admissions
        rw [List.filter_append, hc2head]
        have hself : [now + (t0 + w - now)].filter
            (fun t => now + (t0 + w - now) - w < t) =
            [now + (t0 + w - now)] := by
          rw [List.filter_cons, if_pos]
          · rfl
          · simp only [decide_eq_true_eq]
            linarith
        rw [hself]
        exact (List.subperm_append_right _).mpr hsub2
      · -- all admissions precede the return time
        intro t ht
        rw [List.mem_append] at ht
        rcases ht with ht | ht
        · have := hadm t ht
          linarith
        · rw [List.mem_singleton] at ht
          subst ht
          exact le_refl _
      · -- the window bound
        intro hwp T
        rw [List.filter_append]
        by_cases hTn : T - w < now + (t0 + w - now) ∧ now + (t0 + w - now) ≤ T
        · have hone : [now + (t0 + w - now)].filter
              (fun t => decide (T - w < t ∧ t ≤ T)) =
              [now + (t0 + w - now)] := by
            rw [List.filter_cons, if_pos]
            · rfl
            · simp only [decide_eq_true_eq]
              exact hTn
          rw [hone, List.length_append, List.length_singleton]
          have himp : ∀ a : ℚ, decide (T - w < a ∧ a ≤ T) = true →
              decide (now + (t0 + w - now) - w < a) = true := by
            intro a ha
            simp only [decide_eq_true_eq] at ha ⊢
            obtain ⟨h1, _⟩ := ha
            obtain ⟨_, h3⟩ := hTn
            linarith
          have hsl : List.Sublist
              (adm.filter (fun t => decide (T - w < t ∧ t ≤ T)))
              (adm.filter (fun t => now + (t0 + w - now) - w < t)) :=
            List.monotone_filter_right adm himp
          have hb1 := hsl.length_le
          have hb2 := hsub2.length_le
          have hb3 := hc2len
          omega
        · have hzero : [now + (t0 + w - now)].filter
              (fun t => decide (T - w < t ∧ t ≤ T)) = [] := by
            rw [List.filter_cons, if_neg]
            · rfl
            · simp only [decide_eq_true_eq]
              exact hTn
          rw [hzero, List.append_nil]
          exact hwp T
  · -- room in the deque: admit immediately
    have hW : waitIfNeeded maxCalls w calls now =
        (now, rlPrune w now calls ++ [now]) := by
      simp only [waitIfNeeded]
      rw [if_neg hfull]
    rw [hW]
    dsimp only
    have hroom : (rlPrune w now calls).length < maxCalls := by omega
    refine ⟨le_refl now, ⟨?_, ?_, ?_, ?_, ?_⟩, ?_⟩
    · rw [List.pairwise_append]
      refine ⟨hc1sort, List.pairwise_singleton _ _, ?_⟩
      intro a ha b hb
      rw [List.mem_singleton] at hb
      subst hb
      exact le_trans (hc1le a ha) hnow
    · intro t ht
      rw [List.mem_append] at ht
      rcases ht with ht | ht
      · exact le_trans (hc1le t ht) hnow
      · rw [List.mem_singleton] at ht
        subst ht
        exact le_refl _
    · rw [List.length_append, List.length_singleton]
      omega
    · rw [List.filter_append]
      have hself : [now].filter (fun t => now - w < t) = [now] := by
        rw [List.filter_cons, if_pos]
        · rfl
        · simp only [decide_eq_true_eq]
          linarith
      rw [hself]
      exact (List.subperm_append_right _).mpr hsub1
    · intro t ht
      rw [List.mem_append] at ht
      rcases ht with ht | ht
      · exact le_trans (hadm t ht) hnow
      · rw [List.mem_singleton] at ht
        subst ht
        exact le_refl _
    · intro hwp T
      rw [List.filter_append]
      by_cases hTn : T - w < now ∧ now ≤ T
      · have hone : [now].filter (fun t => decide (T - w < t ∧ t ≤ T)) =
            [now] := by
          rw [List.filter_cons, if_pos]
          · rfl
          · simp only [decide_eq_true_eq]
            exact hTn
        rw [hone, List.length_append, List.length_singleton]
        have himp : ∀ a : ℚ, decide (T - w < a ∧ a ≤ T) = true →
            decide (now - w < a) = true := by
          intro a ha
          simp only [decide_eq_true_eq] at ha ⊢
          obtain ⟨h1, _⟩ := ha
          obtain ⟨_, h3⟩ := hTn
          linarith
        have hsl : List.Sublist
            (adm.filter (fun t => decide (T - w < t ∧ t ≤ T)))
            (adm.filter (fun t => now - w < t)) :=
          List.monotone_filter_right adm himp
        have hb1 := hsl.length_le
        have hb2 := hsub1.length_le
        omega
      · have hzero : [now].filter (fun t => decide (T - w < t ∧ t ≤ T)) =
            [] := by
          rw [List.filter_cons, if_neg]
          · rfl
          · simp only [decide_eq_true_eq]
            exact hTn
        rw [hzero, List.append_nil]
        exact hwp T

/-- Any sequential run of the limiter admits every call and keeps every
window at or below max_calls. -/
theorem runRL_invariant (maxCalls : Nat) (w : ℚ) (hmax : 1 ≤ maxCalls)
    (hw : 0 < w) :
    ∀ (reqs adm : List ℚ) (prev : ℚ) (calls : List ℚ),
      RLInv maxCalls w adm prev calls → RLWin maxCalls w adm →
      (runRL maxCalls w reqs prev calls).length = reqs.length ∧
      RLWin maxCalls w (adm ++ runRL maxCalls w reqs prev calls) := by
  intro reqs
  induction reqs with
  | nil =>
    intro adm prev calls _ hwp
    exact ⟨rfl, by simpa [runRL] using hwp⟩
  | cons r rs ih =>
    intro adm prev calls hinv hwp
    obtain ⟨_, hinv2, hwp2⟩ := waitIfNeeded_step maxCalls w hmax hw adm calls
      prev (max r prev) hinv (le_max_right r prev)
    obtain ⟨hlen, hwin⟩ := ih
      (adm ++ [(waitIfNeeded maxCalls w calls (max r prev)).1])
      (waitIfNeeded maxCalls w calls (max r prev)).1
      (waitIfNeeded maxCalls w calls (max r prev)).2 hinv2 (hwp2 hwp)
    constructor
    · simp only [runRL, List.length_cons, hlen]
    · simp only [runRL]
      have he : adm ++ ((waitIfNeeded maxCalls w calls (max r prev)).1 ::
          runRL maxCalls w rs (waitIfNeeded maxCalls w calls (max r prev)).1
            (waitIfNeeded maxCalls w calls (max r prev)).2) =
          (adm ++ [(waitIfNeeded maxCalls w calls (max r prev)).1]) ++
          runRL maxCalls w rs (waitIfNeeded maxCalls w calls (max r prev)).1
            (waitIfNeeded maxCalls w calls (max r prev)).2 := by
        simp
      rw [he]
      exact hwin

/-- C9 (the sliding-window guarantee of RateLimiter.wait_if_needed):
with max_calls at least one and a positive window, every sequential
trace of calls is fully admitted (no call dropped — each call blocks by
sleeping until capacity frees and then records its admission), and any
time window of length time_window contains at most max_calls
admissions. -/
theorem rate_limiter_window (maxCalls : Nat) (w : ℚ) (reqs : List ℚ)
    (prev : ℚ) (hmax : 1 ≤ maxCalls) (hw : 0 < w) :
    (runRL maxCalls w reqs prev []).length = reqs.length ∧
    ∀ T : ℚ, ((runRL maxCalls w reqs prev []).filter
      (fun t => decide (T - w < t ∧ t ≤ T))).length ≤ maxCalls := by
  have hinv : RLInv maxCalls w [] prev [] := by
    refine ⟨List.Pairwise.nil, ?_, ?_, ?_, ?_⟩
    · intro t ht; exact absurd ht (List.not_mem_nil t)
    · simp
    · simp
    · intro t ht; exact absurd ht (List.not_mem_nil t)
  have hwp : RLWin maxCalls w [] := by
    intro T
    simp only [List.filter_nil, List.length_nil]
    omega
  obtain ⟨hlen, hwin⟩ := runRL_invariant maxCalls w hmax hw reqs [] prev []
    hinv hwp
  refine ⟨hlen, ?_⟩
  intro T
  have := hwin T
  simpa using this

/-- Witness for C9: a burst of four requests against a limit of two
calls per sixty seconds is fully admitted, and the window ending at
time sixty holds at most two admissions. -/
theorem rate_limiter_window_witness :
    (runRL 2 60 [0, 1, 2, 3] 0 []).length = 4 ∧
    ((runRL 2 60 [0, 1, 2, 3] 0 []).filter
      (fun t => decide ((60 : ℚ) - 60 < t ∧ t ≤ 60))).length ≤ 2 := by
  constructor
  · exact (rate_limiter_window 2 60 [0, 1, 2, 3] 0 (by norm_num)
      (by norm_num)).1
  · exact (rate_limiter_window 2 60 [0, 1, 2, 3] 0 (by norm_num)
      (by norm_num)).2 60

end Fileai
